import Mathlib

/-
  Verification of the policy lookup core of dnsmasq-sqlite.

  The development shallowly embeds the C sources:
    * `src/OLD/dnsmasq2.91-PATCH/src/db.c` (v4.3): suffix decomposer,
      bloom filter, bucketed regex cache, LRU cache, decision pipeline,
      domain aliasing;
    * `src/dnsmasq-2.92rc3/src/db.c` (v6.0): IPv6 normalization, CIDR
      parsing and matching, IP rewriting.

  C byte strings are modelled as `List Char` (each `Char` standing for one
  byte; all inputs of interest are ASCII).  Machine integers are modelled as
  `Nat` with explicit reductions `% 2^32` where 32-bit overflow matters.
  The SQLite store is modelled as association lists / key lists, with the
  store's query semantics taken from the SQL text the source builds
  (point lookup, and `WHERE Domain IN (...) ORDER BY length(Domain) DESC
  LIMIT 1` for the batched suffix query).
-/

namespace DnsmasqDb

/-- Outcome tags of the policy decider (the `IPSET_TYPE_*` constants used by
`db_lookup_domain`): NONE / TERMINATE / DNS_BLOCK (= FORWARD_BLOCK) /
DNS_ALLOW (= FORWARD_ALLOW). -/
inductive IpsetType
  | none
  | terminate
  | dns_block
  | dns_allow
  deriving DecidableEq, Repr

/-! ## Suffix decomposer (`domain_get_suffixes`, db.c v4.3 lines 155-178) -/

/-- `MAX_DOMAIN_LEVELS` from db.c. -/
def MAX_DOMAIN_LEVELS : Nat := 16

/-- The scanning loop of `domain_get_suffixes`: walk the string; at every
`'.'` whose successor byte is nonzero record the tail after the dot, while
fewer than `room` entries have been recorded (`count < max_count` in C,
where `count` already includes the full-name entry). -/
def suffixScan : List Char → Nat → List (List Char)
  | [], _ => []
  | c :: rest, room =>
    if room = 0 then []
    else if c = '.' ∧ rest ≠ [] then rest :: suffixScan rest (room - 1)
    else suffixScan rest room

/-- `domain_get_suffixes(domain, suffixes, MAX_DOMAIN_LEVELS)`: entry 0 is
the full domain, then one entry per interior dot, capped at 16 entries. -/
def domain_get_suffixes (domain : List Char) : List (List Char) :=
  domain :: suffixScan domain (MAX_DOMAIN_LEVELS - 1)

/-- The tail of `s` beginning immediately after its first `'.'` (empty when
`s` has no dot). -/
def afterFirstDot (s : List Char) : List Char :=
  (s.dropWhile (· ≠ '.')).tail

/-- The relation between consecutive suffix-list entries: the next entry
starts immediately after the previous entry's first dot, and is strictly
shorter (a proper tail). -/
def SuffixStep (a b : List Char) : Prop :=
  b = afterFirstDot a ∧ b.length < a.length

/-! ## Batched suffix query (`suffix_wildcard_query_match`, db.c v4.3
lines 203-259)

The function materializes the suffix list of the queried name and executes
`SELECT Domain FROM <table> WHERE Domain IN (?,...) ORDER BY length(Domain)
DESC LIMIT 1`; the matched key is copied into a 256-byte caller buffer.  A
failed prepare, bind, or step makes the function report "not found" (0).
The store table is modelled as its list of keys, and the SQL row semantics
as: some key of maximum length among the bound candidates present in the
table, or none. -/

/-- Length of `matched_out` minus the terminating NUL (`matched_domain_buf`
has 256 bytes; `snprintf` keeps at most 255 payload bytes). -/
def MATCHED_BUF_PAYLOAD : Nat := 255

def suffix_wildcard_query_match (table : List (List Char)) (queryError : Bool)
    (domain : List Char) : Option (List Char) :=
  if queryError then Option.none
  else
    let present := (domain_get_suffixes domain).filter
      (fun s => decide (s ∈ table))
    (present.argmax List.length).map (fun m => m.take MATCHED_BUF_PAYLOAD)

/-! ## Bloom filter (db.c v4.3 lines 333-410 and 2082-2108)

`bloom_filter` is a byte array of `bloom_size/8 + 1` zero-initialized
bytes; `bloom_add` sets, and `bloom_check` tests, the seven bits at
positions `(h1 + i*h2) mod bloom_size` (`i` in `[0,7)`), where `h1`/`h2`
are 32-bit string hashes reduced `mod bloom_size`.  The byte array is
modelled as a total function from byte index to byte value. -/
def BLOOM_HASHES : Nat := 7

/-- `2^32`, the modulus of C `unsigned int` arithmetic. -/
def U32 : Nat := 2 ^ 32

/-- `bloom_hash1`: `hash = hash * 31 + *str++` in 32-bit arithmetic. -/
def bloom_hash1_acc : List Char → Nat → Nat
  | [], h => h
  | c :: rest, h => bloom_hash1_acc rest ((h * 31 + c.toNat) % U32)

def bloom_hash1 (m : Nat) (s : List Char) : Nat :=
  bloom_hash1_acc s 0 % m

/-- `bloom_hash2`: DJB2-XOR `hash = ((hash << 5) + hash) ^ *str++` in
32-bit arithmetic (`(h << 5) + h = h * 33` mod `2^32`; XOR with a byte
stays below `2^32`). -/
def bloom_hash2_acc : List Char → Nat → Nat
  | [], h => h
  | c :: rest, h => bloom_hash2_acc rest (Nat.xor ((h * 33) % U32) c.toNat)

def bloom_hash2 (m : Nat) (s : List Char) : Nat :=
  bloom_hash2_acc s 5381 % m

/-- The seven probe bit positions `(h1 + i*h2) % bloom_size` (the sum is
32-bit `unsigned int` arithmetic, hence the inner `% 2^32`). -/
def bloom_positions (m : Nat) (s : List Char) : List Nat :=
  (List.range BLOOM_HASHES).map
    (fun i => ((bloom_hash1 m s + i * bloom_hash2 m s) % U32) % m)

/-- The filter: byte array (index to byte value) plus `bloom_size` in bits. -/
structure BloomFilter where
  bytes : Nat → Nat
  size : Nat

/-- `bloom_filter[pos / 8] |= (1 << (pos % 8))`. -/
def bloom_set_bit (bytes : Nat → Nat) (pos : Nat) : Nat → Nat :=
  fun b => if b = pos / 8 then bytes b ||| (1 <<< (pos % 8)) else bytes b

/-- `bloom_filter[pos / 8] & (1 << (pos % 8))` as a Bool. -/
def bloom_get_bit (bytes : Nat → Nat) (pos : Nat) : Bool :=
  decide (bytes (pos / 8) &&& (1 <<< (pos % 8)) ≠ 0)

/-- `bloom_add`: set all seven probe bits of `domain`. -/
def bloom_add (f : BloomFilter) (domain : List Char) : BloomFilter :=
  ⟨(bloom_positions f.size domain).foldl bloom_set_bit f.bytes, f.size⟩

/-- `bloom_check`: true iff all seven probe bits of `domain` are set. -/
def bloom_check (f : BloomFilter) (domain : List Char) : Bool :=
  (bloom_positions f.size domain).all (fun pos => bloom_get_bit f.bytes pos)

/-- `bloom_load`: start from the all-zero `calloc`ed array and
`bloom_add` every key of `block_exact`. -/
def bloom_load (m : Nat) (keys : List (List Char)) : BloomFilter :=
  keys.foldl bloom_add ⟨fun _ => 0, m⟩

/-! ## Bucketed regex cache (db.c v4.3 lines 425-500, 1263-1370, 1459-1506)

Patterns are compiled with PCRE2 and placed into 256 buckets plus a
catch-all; the compiled matcher of an entry is modelled as an opaque
`List Char → Bool` (PCRE2 is an external library).  Lookup tests the
bucket of the queried name's first byte and the catch-all bucket. -/
def REGEX_CATCHALL_BUCKET : Nat := 256

/-- C `tolower` on a byte value (ASCII/C locale). -/
def tolowerByte (b : Nat) : Nat :=
  if 65 ≤ b ∧ b ≤ 90 then b + 32 else b

/-- The byte a C `char*` dereference sees: first byte, or NUL (0) at the
end of the string. -/
def firstByte : List Char → Nat
  | [] => 0
  | c :: _ => c.toNat

/-- `regex_get_bucket` (db.c v4.3 lines 461-485): skip a leading `'^'`
(byte 94); `'.'`(46) `'('`(40) `'['`(91) `'\'`(92) `'*'`(42) `'?'`(63) →
catch-all; lowercase letters and digits → that byte's bucket; anything
else → catch-all. -/
def regex_get_bucket (pattern : List Char) : Nat :=
  if pattern = [] then REGEX_CATCHALL_BUCKET
  else
    let p := if firstByte pattern = 94 then pattern.tail else pattern
    let b := firstByte p
    if b = 46 ∨ b = 40 ∨ b = 91 ∨ b = 92 ∨ b = 42 ∨ b = 63 then
      REGEX_CATCHALL_BUCKET
    else
      let c := tolowerByte b
      if 97 ≤ c ∧ c ≤ 122 then c
      else if 48 ≤ c ∧ c ≤ 57 then c
      else REGEX_CATCHALL_BUCKET

/-- `regex_get_domain_bucket` (db.c v4.3 lines 488-495): bucket of the
lowercased first byte of the name (0 for the empty name). -/
def regex_get_domain_bucket (domain : List Char) : Nat :=
  match domain with
  | [] => 0
  | c :: _ => tolowerByte c.toNat

/-- One loaded regex-cache entry: the source pattern together with the
behaviour of its compiled form (`pcre2_match` returning `rc >= 0`). -/
structure RegexEntry where
  pattern : List Char
  accepts : List Char → Bool

/-- The bucket table built by `load_regex_cache`: each successfully
compiled entry is prepended to `regex_buckets[regex_get_bucket(pattern)]`. -/
def regexBucketInsert (bk : Nat → List RegexEntry) (e : RegexEntry) :
    Nat → List RegexEntry :=
  fun i => if i = regex_get_bucket e.pattern then e :: bk i else bk i

def regexBuckets (entries : List RegexEntry) : Nat → List RegexEntry :=
  entries.foldl regexBucketInsert (fun _ => [])

/-- The step-1 lookup loop of `db_lookup_domain` (db.c v4.3 lines
1471-1503): test the entries of the name's bucket, then the catch-all
bucket; report whether any entry's compiled pattern matched. -/
def regex_bucket_lookup (bk : Nat → List RegexEntry) (name : List Char) :
    Bool :=
  (bk (regex_get_domain_bucket name)).any (fun e => e.accepts name) ||
  (bk REGEX_CATCHALL_BUCKET).any (fun e => e.accepts name)

/-- ASCII alphanumeric byte. -/
def isAlnumByte (b : Nat) : Prop :=
  (48 ≤ b ∧ b ≤ 57) ∨ (65 ≤ b ∧ b ≤ 90) ∨ (97 ≤ b ∧ b ≤ 122)

instance (b : Nat) : Decidable (isAlnumByte b) := by
  unfold isAlnumByte; infer_instance

/-- The bucketing rule in the words of the specification: after an
optional `'^'`, a first byte of `'.' '(' '[' '\' '*' '?'`, or a
non-alphanumeric first byte, goes to the catch-all; otherwise the bucket
of the lowercased first byte. -/
def bucketSpec (pattern : List Char) : Nat :=
  let p := if firstByte pattern = 94 ∧ pattern ≠ [] then pattern.tail
    else pattern
  let b := firstByte p
  if b = 46 ∨ b = 40 ∨ b = 91 ∨ b = 92 ∨ b = 42 ∨ b = 63 then
    REGEX_CATCHALL_BUCKET
  else if isAlnumByte b then tolowerByte b
  else REGEX_CATCHALL_BUCKET

/-- A PCRE2 literal pattern (no metacharacters) matches anywhere in the
subject: unanchored substring search. -/
def literalMatcher (pat : List Char) : List Char → Bool :=
  fun s => decide (pat <:+: s)


/-! ## LRU cache (db.c v4.3 lines 272-292 and 1856-2010)

The doubly-linked recency list with its hash index is modelled as the
recency-ordered list of `(domain, ipset_type)` entries (head = most
recently used).  `lru_get` moves a found entry to the head; `lru_put`
updates-and-moves an existing key, and otherwise evicts the tail when the
cache is at capacity before inserting at the head. -/

def LRU_CACHE_SIZE : Nat := 10000

/-- `sizeof(((lru_entry_t *)0)->domain) - 1`: an entry's `domain` field is
`char domain[256]` (db.c v4.3 line 276), and `lru_put` copies the name
into it with `snprintf(entry->domain, sizeof(entry->domain), "%s",
domain)`, keeping at most 255 bytes. -/
def LRU_DOMAIN_PAYLOAD : Nat := 255

/-- An LRU cache state: entries in recency order (head = MRU, last = LRU
tail). -/
structure LruState where
  entries : List (List Char × IpsetType)

/-- Search for a key (the hash-chain walk with `strcmp`), returning its
cached outcome. -/
def lruFind (name : List Char) : List (List Char × IpsetType) → Option IpsetType
  | [] => Option.none
  | e :: rest => if e.1 = name then some e.2 else lruFind name rest

/-- Unlink the (first) entry with the given key from the recency list. -/
def lruRemove (name : List Char) :
    List (List Char × IpsetType) → List (List Char × IpsetType)
  | [] => []
  | e :: rest => if e.1 = name then rest else e :: lruRemove name rest

/-- `lru_get`: on a hit, bump counters and move the entry to the front. -/
def lru_get_op (s : LruState) (name : List Char) : LruState :=
  match lruFind name s.entries with
  | some t => ⟨(name, t) :: lruRemove name s.entries⟩
  | Option.none => s

/-- `lru_put`: update-and-move-to-front an existing key; otherwise evict
the tail if `lru_count >= LRU_CACHE_SIZE`, then insert at the head a new
entry whose stored name is the `snprintf`-truncated copy of the name
(at most `LRU_DOMAIN_PAYLOAD` bytes fit the `domain[256]` field). -/
def lru_put_op (s : LruState) (name : List Char) (t : IpsetType) : LruState :=
  match lruFind name s.entries with
  | some _ => ⟨(name, t) :: lruRemove name s.entries⟩
  | Option.none =>
    ⟨(name.take LRU_DOMAIN_PAYLOAD, t) ::
      (if s.entries.length ≥ LRU_CACHE_SIZE
        then s.entries.dropLast else s.entries)⟩

/-- The cache's public operations. -/
inductive LruOp
  | get (name : List Char)
  | put (name : List Char) (t : IpsetType)

def lru_step (s : LruState) : LruOp → LruState
  | .get n => lru_get_op s n
  | .put n t => lru_put_op s n t

/-- Run a sequence of operations from the empty cache (`lru_init`). -/
def lru_run (ops : List LruOp) : LruState :=
  ops.foldl lru_step ⟨[]⟩

/-- The cache invariant: entry count at most the capacity, and no two
entries share a key. -/
def LruInv (s : LruState) : Prop :=
  s.entries.length ≤ LRU_CACHE_SIZE ∧ (s.entries.map Prod.fst).Nodup

/-- An operation whose name fits the 255-byte `domain` field of an entry,
so that `snprintf` stores it untruncated (a `put` of a longer name is
stored truncated, and a later `put` of the same long name misses the
`strcmp` chain search and inserts a second entry with the same stored
name). -/
def LruOpFits : LruOp → Prop
  | .get _ => True
  | .put n _ => n.length ≤ LRU_DOMAIN_PAYLOAD


/-! ## Policy decision pipeline (`db_lookup_domain`, db.c v4.3 lines
1425-1582)

The function returns NONE when no database handle exists, consults the
LRU cache, and on a miss runs steps 1-5: bucketed regex lookup (when the
regex statement was prepared), `block_exact` point lookup guarded by the
bloom filter (when that statement exists and bind/step succeed), then the
three suffix-table queries.  Per-step store failures (missing statement,
failed prepare/bind/step) leave that step without a match. -/

/-- Store-dependent inputs of `db_lookup_domain`: the key lists of the
four policy tables, the loaded regex cache, whether the regex / exact
prepared statements exist, and per-step error flags standing for a failed
prepare, bind, or step of that step's query. -/
structure StoreState where
  block_exact : List (List Char)
  block_wildcard : List (List Char)
  fqdn_dns_allow : List (List Char)
  fqdn_dns_block : List (List Char)
  regexEntries : List RegexEntry
  regexStmtPresent : Bool
  exactStmtPresent : Bool
  exactErr : Bool
  wildcardErr : Bool
  allowErr : Bool
  blocksfxErr : Bool

/-- `bloom_check` with its NULL-filter fallback (`if (!bloom_filter)
return 1`). -/
def bloom_check_opt (f : Option BloomFilter) (name : List Char) : Bool :=
  match f with
  | Option.none => true
  | some fl => bloom_check fl name

/-- Steps 1-5 of `db_lookup_domain` on an LRU miss. -/
def db_lookup_pipeline (st : StoreState) (bloom : Option BloomFilter)
    (name : List Char) : IpsetType :=
  if st.regexStmtPresent = true ∧
      regex_bucket_lookup (regexBuckets st.regexEntries) name = true then
    IpsetType.terminate
  else if st.exactStmtPresent = true ∧ bloom_check_opt bloom name = true ∧
      st.exactErr = false ∧ name ∈ st.block_exact then
    IpsetType.terminate
  else if (suffix_wildcard_query_match st.block_wildcard st.wildcardErr
      name).isSome then
    IpsetType.dns_block
  else if (suffix_wildcard_query_match st.fqdn_dns_allow st.allowErr
      name).isSome then
    IpsetType.dns_allow
  else if (suffix_wildcard_query_match st.fqdn_dns_block st.blocksfxErr
      name).isSome then
    IpsetType.dns_block
  else IpsetType.none

/-- `db_lookup_domain`: NONE when no database handle, the cached outcome
on an LRU hit, and the pipeline outcome otherwise (the final `lru_put`
does not change the returned value). -/
def db_lookup_domain (dbPresent : Bool) (st : StoreState)
    (bloom : Option BloomFilter) (cache : LruState) (name : List Char) :
    IpsetType :=
  if dbPresent = false then IpsetType.none
  else match lruFind name cache.entries with
    | some t => t
    | Option.none => db_lookup_pipeline st bloom name

/-- The decision pipeline in the specification's words: the first source
that matches wins, in the order regex patterns, `block_exact`,
`block_wildcard`, `fqdn_dns_allow`, `fqdn_dns_block`; NONE otherwise. -/
def decisionSpec (st : StoreState) (name : List Char) : IpsetType :=
  if regex_bucket_lookup (regexBuckets st.regexEntries) name = true then
    IpsetType.terminate
  else if name ∈ st.block_exact then IpsetType.terminate
  else if ∃ s ∈ domain_get_suffixes name, s ∈ st.block_wildcard then
    IpsetType.dns_block
  else if ∃ s ∈ domain_get_suffixes name, s ∈ st.fqdn_dns_allow then
    IpsetType.dns_allow
  else if ∃ s ∈ domain_get_suffixes name, s ∈ st.fqdn_dns_block then
    IpsetType.dns_block
  else IpsetType.none


/-! ## Domain aliasing (`db_get_domain_alias`, db.c v4.3 lines 1627-1697)

Step 1 is an exact point lookup of the full name in `domain_alias`
(the result copied into the 1024-byte `tls_domain_buffer` by `snprintf`,
hence capped at 1023 payload bytes); step 2, on a miss and when the name
has a first dot followed by at least one byte, looks up the parent
(everything after the first dot) and prepends the subdomain prefix (bytes
up to and including the first dot), refusing compositions for which
`prefix_len + strlen(target) + 1 > 1024`. -/

/-- `sizeof(tls_domain_buffer)`. -/
def TLS_DOMAIN_BUFFER : Nat := 1024

/-- Point lookup in the `domain_alias` mapping
(`SELECT Target_Domain FROM domain_alias WHERE Source_Domain = ?`). -/
def assocFind (key : List Char) :
    List (List Char × List Char) → Option (List Char)
  | [] => Option.none
  | e :: rest => if e.1 = key then some e.2 else assocFind key rest

/-- The subdomain prefix: bytes up to and including the first dot. -/
def upToFirstDot (s : List Char) : List Char :=
  (s.takeWhile (· ≠ '.')) ++ ['.']

def db_get_domain_alias (tbl : List (List Char × List Char))
    (source : List Char) : Option (List Char) :=
  match assocFind source tbl with
  | some target => some (target.take (TLS_DOMAIN_BUFFER - 1))
  | Option.none =>
    if '.' ∈ source ∧ afterFirstDot source ≠ [] then
      match assocFind (afterFirstDot source) tbl with
      | some target =>
        if (upToFirstDot source).length + target.length + 1 >
            TLS_DOMAIN_BUFFER then
          Option.none
        else some (upToFirstDot source ++ target)
      | Option.none => Option.none
    else Option.none


/-! ## dnsmasq-2.92rc3 (db.c v6.0): IPv6 normalization, CIDR matching and
IP rewriting

`inet_pton` is the external libc parser the source calls; it is modelled
after the POSIX/RFC 4291 textual address forms as implemented by glibc:
dotted-decimal with 1-3 digits per octet and no leading zeros for
`AF_INET`, and for `AF_INET6` groups of 1-4 hex digits separated by `:`,
one optional `::` compression, an optional trailing dotted-quad, and a
leading/trailing single `:` rejected.  Addresses are byte lists
(4 or 16 entries, each < 256). -/

/-- The octet-accumulating loop of `inet_pton4` (state: value of the
current octet, whether a digit of it was seen, octets started so far,
completed octets). -/
def inet_pton4_loop : List Char → Nat → Bool → Nat → List Nat →
    Option (List Nat)
  | [], cur, _, octets, acc =>
    if octets < 4 then Option.none else some (acc ++ [cur])
  | ch :: rest, cur, sawDigit, octets, acc =>
    if ch.isDigit then
      let d := ch.toNat - 48
      if sawDigit ∧ cur = 0 then Option.none
      else if cur * 10 + d > 255 then Option.none
      else if sawDigit then inet_pton4_loop rest (cur * 10 + d) true octets acc
      else if octets + 1 > 4 then Option.none
      else inet_pton4_loop rest (cur * 10 + d) true (octets + 1) acc
    else if ch = '.' ∧ sawDigit then
      if octets = 4 then Option.none
      else inet_pton4_loop rest 0 false octets (acc ++ [cur])
    else Option.none

def inet_pton4 (s : List Char) : Option (List Nat) :=
  inet_pton4_loop s 0 false 0 []

/-- `hexdigit_value`: value of a hex digit character, lowercase or
uppercase. -/
def hexdigit_value (c : Char) : Option Nat :=
  if '0' ≤ c ∧ c ≤ '9' then some (c.toNat - 48)
  else if 'a' ≤ c ∧ c ≤ 'f' then some (c.toNat - 97 + 10)
  else if 'A' ≤ c ∧ c ≤ 'F' then some (c.toNat - 65 + 10)
  else Option.none

/-- The post-loop phase of `inet_pton6`: flush a pending group, then
spread the bytes after the `::` mark to the end, zero-filling the gap;
exactly 16 bytes must result. -/
def inet_pton6_finish (tp : List Nat) (colonp : Option Nat) (digits : Nat)
    (val : Nat) : Option (List Nat) :=
  match (if 0 < digits then
      (if tp.length + 2 > 16 then Option.none
       else some (tp ++ [val / 256 % 256, val % 256]))
    else some tp) with
  | Option.none => Option.none
  | some tpv =>
    match colonp with
    | some cp =>
      if tpv.length = 16 then Option.none
      else some (tpv.take cp ++ List.replicate (16 - tpv.length) 0 ++
        tpv.drop cp)
    | Option.none => if tpv.length = 16 then some tpv else Option.none

/-- The main loop of `inet_pton6` (state: flushed bytes, position of the
`::` mark if seen, hex digits of the current group, its value, and the
start of the current token for a possible dotted-quad tail). -/
def inet_pton6_loop : List Char → List Nat → Option Nat → Nat → Nat →
    List Char → Option (List Nat)
  | [], tp, colonp, digits, val, _ => inet_pton6_finish tp colonp digits val
  | ch :: rest, tp, colonp, digits, val, curtok =>
    match hexdigit_value ch with
    | some d =>
      if digits = 4 then Option.none
      else inet_pton6_loop rest tp colonp (digits + 1) (val * 16 + d) curtok
    | Option.none =>
      if ch = ':' then
        if digits = 0 then
          if colonp.isSome then Option.none
          else inet_pton6_loop rest tp (some tp.length) 0 0 rest
        else if rest = [] then Option.none
        else if tp.length + 2 > 16 then Option.none
        else inet_pton6_loop rest (tp ++ [val / 256 % 256, val % 256])
          colonp 0 0 rest
      else if ch = '.' ∧ tp.length + 4 ≤ 16 then
        match inet_pton4 curtok with
        | some b4 => inet_pton6_finish (tp ++ b4) colonp 0 0
        | Option.none => Option.none
      else Option.none

def inet_pton6 (s : List Char) : Option (List Nat) :=
  if firstByte s = 58 then
    if firstByte s.tail = 58 then
      inet_pton6_loop s.tail [] Option.none 0 0 s.tail
    else Option.none
  else inet_pton6_loop s [] Option.none 0 0 s

/-- One lowercase hex digit (`%x`). -/
def hexDigitChar (n : Nat) : Char :=
  if n < 10 then Char.ofNat (48 + n) else Char.ofNat (87 + n)

/-- `%02x` of a byte. -/
def byteToHex (b : Nat) : List Char :=
  [hexDigitChar (b / 16 % 16), hexDigitChar (b % 16)]

/-- The `snprintf` format of `ipv6_normalize`:
`"%02x%02x:%02x%02x:..."` — two bytes per group, groups joined by `:`. -/
def ipv6_format : List Nat → List Char
  | [] => []
  | [b] => byteToHex b
  | b0 :: b1 :: rest =>
    byteToHex b0 ++ byteToHex b1 ++
      (if rest = [] then [] else ':' :: ipv6_format rest)

/-- `ipv6_normalize(input, output, outlen)` (db.c v6.0 lines 191-214):
the fully expanded lowercase form when `input` parses as IPv6, otherwise
a copy of `input`; either way at most `outlen - 1` bytes are kept
(`strncpy`/`snprintf` truncation).  Call sites use `outlen = 48`. -/
def ipv6_normalize (input : List Char) (outlen : Nat) : List Char :=
  match inet_pton6 input with
  | some bytes => (ipv6_format bytes).take (outlen - 1)
  | Option.none => input.take (outlen - 1)

/-- C `atoi` digit accumulation. -/
def atoiDigits : List Char → Nat → Nat
  | [], acc => acc
  | c :: rest, acc =>
    if c.isDigit then atoiDigits rest (acc * 10 + (c.toNat - 48)) else acc

/-- C `atoi`: skip whitespace, optional sign, then leading digits; a
non-numeric string yields 0. -/
def atoi (s : List Char) : Int :=
  match s.dropWhile (fun c => c = ' ' ∨ c = '\t' ∨ c = '\n' ∨
      c = Char.ofNat 11 ∨ c = Char.ofNat 12 ∨ c = '\r') with
  | '-' :: rest => -(atoiDigits rest 0 : Int)
  | '+' :: rest => (atoiDigits rest 0 : Int)
  | s1 => (atoiDigits s1 0 : Int)

/-- Result of `parse_cidr`: error, or a network address with prefix
length and family. -/
inductive CidrResult
  | err
  | v4 (net : List Nat) (prefix_len : Nat)
  | v6 (net : List Nat) (prefix_len : Nat)
  deriving DecidableEq, Repr

/-- `parse_cidr` (db.c v6.0 lines 222-272): without a `/`, parse as a
host address (`/32` or `/128`); with one, parse the IP part (rejected at
`INET6_ADDRSTRLEN` = 46 bytes or more), read the prefix length with
`atoi`, and range-check it against the family. -/
def parse_cidr (cidr : List Char) : CidrResult :=
  if '/' ∈ cidr then
    let ip_part := cidr.takeWhile (· ≠ '/')
    let plen := atoi ((cidr.dropWhile (· ≠ '/')).tail)
    if ip_part.length ≥ 46 then CidrResult.err
    else if ':' ∈ ip_part then
      match inet_pton6 ip_part with
      | Option.none => CidrResult.err
      | some a6 =>
        if plen < 0 ∨ plen > 128 then CidrResult.err
        else CidrResult.v6 a6 plen.toNat
    else
      match inet_pton4 ip_part with
      | Option.none => CidrResult.err
      | some a4 =>
        if plen < 0 ∨ plen > 32 then CidrResult.err
        else CidrResult.v4 a4 plen.toNat
  else if ':' ∈ cidr then
    match inet_pton6 cidr with
    | Option.none => CidrResult.err
    | some a6 => CidrResult.v6 a6 128
  else
    match inet_pton4 cidr with
    | Option.none => CidrResult.err
    | some a4 => CidrResult.v4 a4 32

/-- The `s_addr` value of a 4-byte address (network byte order read as a
big-endian number; the `htonl`-based mask comparison of the C is
equivalent to masking these values). -/
def be32 : List Nat → Nat
  | [a, b, c, d] => ((a * 256 + b) * 256 + c) * 256 + d
  | _ => 0

/-- `ipv4_in_cidr` (db.c v6.0 lines 275-284). -/
def ipv4_in_cidr (addr network : List Nat) (prefix_len : Nat) : Bool :=
  if prefix_len = 0 then true
  else if prefix_len = 32 then decide (be32 addr = be32 network)
  else
    decide (Nat.land (be32 addr) (2 ^ 32 - 2 ^ (32 - prefix_len)) =
      Nat.land (be32 network) (2 ^ 32 - 2 ^ (32 - prefix_len)))

/-- `ipv6_in_cidr` (db.c v6.0 lines 287-304): compare `prefix_len / 8`
full bytes, then the high `prefix_len % 8` bits of the next byte. -/
def ipv6_in_cidr (addr network : List Nat) (prefix_len : Nat) : Bool :=
  (decide (addr.take (prefix_len / 8) = network.take (prefix_len / 8))) &&
  (if 0 < prefix_len % 8 then
    decide (Nat.land (addr.getD (prefix_len / 8) 0)
        ((255 <<< (8 - prefix_len % 8)) % 256) =
      Nat.land (network.getD (prefix_len / 8) 0)
        ((255 <<< (8 - prefix_len % 8)) % 256))
  else true)

/-- `sizeof(ip_rewrite_buffer) - 1` (`INET6_ADDRSTRLEN + 1` bytes,
`strncpy` keeps at most 46). -/
def IP_REWRITE_PAYLOAD : Nat := 46

/-- The CIDR row scan of `db_get_rewrite_ip_internal`: rows of
`block_ips` whose `Source_IP` contains a `/`, in table order; unparsable
rows and family mismatches are skipped; the first range containing the
address wins. -/
def cidr_scan (rows : List (List Char × List Char)) (is_ipv6 : Bool)
    (a4 a6 : List Nat) : Option (List Char) :=
  match rows with
  | [] => Option.none
  | (src, tgt) :: rest =>
    match parse_cidr src with
    | CidrResult.err => cidr_scan rest is_ipv6 a4 a6
    | CidrResult.v4 net plen =>
      if is_ipv6 = false then
        if ipv4_in_cidr a4 net plen then some (tgt.take IP_REWRITE_PAYLOAD)
        else cidr_scan rest is_ipv6 a4 a6
      else cidr_scan rest is_ipv6 a4 a6
    | CidrResult.v6 net plen =>
      if is_ipv6 = true then
        if ipv6_in_cidr a6 net plen then some (tgt.take IP_REWRITE_PAYLOAD)
        else cidr_scan rest is_ipv6 a4 a6
      else cidr_scan rest is_ipv6 a4 a6

/-- `db_get_rewrite_ip_internal` (db.c v6.0 lines 636-728) over the
`block_ips` table: exact match on the stringified address, for IPv6 also
on its normalized form, then the CIDR scan over the rows containing a
`/` (the source address must parse, else no rewrite). -/
def db_get_rewrite_ip_internal (tbl : List (List Char × List Char))
    (source_ip : List Char) (is_ipv6 : Bool) : Option (List Char) :=
  match assocFind source_ip tbl with
  | some target => some (target.take IP_REWRITE_PAYLOAD)
  | Option.none =>
    match (if is_ipv6 = true ∧ source_ip ≠ ipv6_normalize source_ip 48
        then assocFind (ipv6_normalize source_ip 48) tbl
        else Option.none) with
    | some target => some (target.take IP_REWRITE_PAYLOAD)
    | Option.none =>
      if is_ipv6 = true then
        match inet_pton6 source_ip with
        | Option.none => Option.none
        | some a6 =>
          cidr_scan (tbl.filter (fun e => decide ('/' ∈ e.1))) true [] a6
      else
        match inet_pton4 source_ip with
        | Option.none => Option.none
        | some a4 =>
          cidr_scan (tbl.filter (fun e => decide ('/' ∈ e.1))) false a4 []

/-! ## Theorems -/
theorem afterFirstDot_cons_dot (rest : List Char) :
    afterFirstDot ('.' :: rest) = rest := by
  simp [afterFirstDot, List.dropWhile]

theorem afterFirstDot_cons_ne {c : Char} (h : c ≠ '.') (rest : List Char) :
    afterFirstDot (c :: rest) = afterFirstDot rest := by
  simp [afterFirstDot, List.dropWhile, h]

theorem suffixScan_length (d : List Char) (room : Nat) :
    (suffixScan d room).length ≤ room := by
  induction d generalizing room with
  | nil => simp [suffixScan]
  | cons c rest ih =>
    by_cases h0 : room = 0
    · simp [suffixScan, h0]
    · by_cases hdot : c = '.' ∧ rest ≠ []
      · have := ih (room - 1)
        simp only [suffixScan, if_neg h0, if_pos hdot, List.length_cons]
        omega
      · simpa [suffixScan, h0, hdot] using ih room

theorem suffixScan_nonempty (d : List Char) (room : Nat) :
    ∀ s ∈ suffixScan d room, s ≠ [] := by
  induction d generalizing room with
  | nil => simp [suffixScan]
  | cons c rest ih =>
    intro s hs
    by_cases h0 : room = 0
    · simp [suffixScan, h0] at hs
    · by_cases hdot : c = '.' ∧ rest ≠ []
      · simp only [suffixScan, if_neg h0, if_pos hdot, List.mem_cons] at hs
        rcases hs with rfl | hs
        · exact hdot.2
        · exact ih (room - 1) s hs
      · rw [suffixScan, if_neg h0, if_neg hdot] at hs
        exact ih room s hs

theorem suffixScan_chain (d : List Char) (room : Nat) :
    List.Chain' SuffixStep (d :: suffixScan d room) := by
  induction d generalizing room with
  | nil => simp [suffixScan]
  | cons c rest ih =>
    by_cases h0 : room = 0
    · simp [suffixScan, h0]
    · by_cases hdot : c = '.' ∧ rest ≠ []
      · rw [suffixScan, if_neg h0, if_pos hdot]
        refine List.Chain'.cons ?_ (ih (room - 1))
        refine ⟨?_, by simp⟩
        rw [hdot.1, afterFirstDot_cons_dot]
      · rw [suffixScan, if_neg h0, if_neg hdot]
        have ihr := ih room
        cases hsc : suffixScan rest room with
        | nil => simp
        | cons b t =>
          rw [hsc] at ihr
          have hrb : SuffixStep rest b := (List.chain'_cons.mp ihr).1
          refine List.Chain'.cons ?_ (List.chain'_cons.mp ihr).2
          have hc : c ≠ '.' ∨ rest = [] := by
            by_contra hcon
            push_neg at hcon
            exact hdot ⟨hcon.1, hcon.2⟩
          rcases hc with hc | hc
          · exact ⟨by rw [afterFirstDot_cons_ne hc, ← hrb.1],
              Nat.lt_trans hrb.2 (by simp)⟩
          · rw [hc] at hsc
            simp [suffixScan] at hsc

/-- **C4.** For every non-empty name, the suffix list produced by
`domain_get_suffixes` has at most 16 entries, entry 0 is the full name,
every entry `i+1` is the proper tail of entry `i` beginning immediately
after that entry's first dot, and no entry is empty (a trailing dot
contributes no empty suffix). -/
theorem C4_suffix_list_shape (d : List Char) (hd : d ≠ []) :
    (domain_get_suffixes d).length ≤ 16 ∧
    (domain_get_suffixes d).head? = some d ∧
    (∀ (i : Nat) (h : i < (domain_get_suffixes d).length - 1),
      (domain_get_suffixes d).get ⟨i + 1, by omega⟩ =
        afterFirstDot ((domain_get_suffixes d).get ⟨i, by omega⟩) ∧
      ((domain_get_suffixes d).get ⟨i + 1, by omega⟩).length <
        ((domain_get_suffixes d).get ⟨i, by omega⟩).length) ∧
    (∀ s ∈ domain_get_suffixes d, s ≠ []) := by
  refine ⟨?_, rfl, ?_, ?_⟩
  · have := suffixScan_length d (MAX_DOMAIN_LEVELS - 1)
    simp only [domain_get_suffixes, List.length_cons, MAX_DOMAIN_LEVELS] at *
    omega
  · exact List.chain'_iff_get.mp (suffixScan_chain d (MAX_DOMAIN_LEVELS - 1))
  · intro s hs
    rcases List.mem_cons.mp hs with rfl | hs
    · exact hd
    · exact suffixScan_nonempty d (MAX_DOMAIN_LEVELS - 1) s hs

/-- Witness for C4 at the concrete name `www.ads.example.com`. -/
theorem C4_suffix_list_shape_witness :
    ("www.ads.example.com".toList ≠ []) ∧
    ((domain_get_suffixes "www.ads.example.com".toList).length ≤ 16 ∧
    (domain_get_suffixes "www.ads.example.com".toList).head? =
      some "www.ads.example.com".toList ∧
    (∀ (i : Nat)
      (h : i < (domain_get_suffixes "www.ads.example.com".toList).length - 1),
      (domain_get_suffixes "www.ads.example.com".toList).get ⟨i + 1, by omega⟩ =
        afterFirstDot ((domain_get_suffixes "www.ads.example.com".toList).get
          ⟨i, by omega⟩) ∧
      ((domain_get_suffixes "www.ads.example.com".toList).get
          ⟨i + 1, by omega⟩).length <
        ((domain_get_suffixes "www.ads.example.com".toList).get
          ⟨i, by omega⟩).length) ∧
    (∀ s ∈ domain_get_suffixes "www.ads.example.com".toList, s ≠ [])) :=
  ⟨by decide, C4_suffix_list_shape "www.ads.example.com".toList (by decide)⟩

theorem suffixScan_length_le (d : List Char) (room : Nat) :
    ∀ s ∈ suffixScan d room, s.length ≤ d.length := by
  induction d generalizing room with
  | nil => simp [suffixScan]
  | cons c rest ih =>
    intro s hs
    by_cases h0 : room = 0
    · simp [suffixScan, h0] at hs
    · by_cases hdot : c = '.' ∧ rest ≠ []
      · simp only [suffixScan, if_neg h0, if_pos hdot, List.mem_cons] at hs
        rcases hs with rfl | hs
        · simp
        · have := ih (room - 1) s hs
          simp only [List.length_cons]
          omega
      · rw [suffixScan, if_neg h0, if_neg hdot] at hs
        have := ih room s hs
        simp only [List.length_cons]
        omega

theorem mem_suffixes_length_le {d s : List Char}
    (hs : s ∈ domain_get_suffixes d) : s.length ≤ d.length := by
  rcases List.mem_cons.mp hs with rfl | hs
  · exact le_refl _
  · exact suffixScan_length_le d _ s hs

/-- **C5.** For every name within the 255-byte name bound and every suffix
table, when the store query executes without error the batched membership
query reports a match exactly when some entry of the name's suffix list is
a key of the table, and the key it returns is of maximum length among the
suffixes present in the table. -/
theorem C5_longest_suffix_query (table : List (List Char)) (domain : List Char)
    (hlen : domain.length ≤ 255) :
    ((suffix_wildcard_query_match table false domain).isSome ↔
      ∃ s ∈ domain_get_suffixes domain, s ∈ table) ∧
    (∀ m, suffix_wildcard_query_match table false domain = some m →
      m ∈ domain_get_suffixes domain ∧ m ∈ table ∧
      ∀ s ∈ domain_get_suffixes domain, s ∈ table → s.length ≤ m.length) := by
  have hfilter : ∀ s, s ∈ (domain_get_suffixes domain).filter
      (fun s => decide (s ∈ table)) ↔
      s ∈ domain_get_suffixes domain ∧ s ∈ table := by
    intro s
    simp [List.mem_filter]
  have htake : ∀ s ∈ domain_get_suffixes domain,
      s.take MATCHED_BUF_PAYLOAD = s := by
    intro s hs
    exact List.take_of_length_le
      (le_trans (mem_suffixes_length_le hs)
        (by simpa [MATCHED_BUF_PAYLOAD] using hlen))
  have hq : suffix_wildcard_query_match table false domain =
      (((domain_get_suffixes domain).filter
        (fun s => decide (s ∈ table))).argmax List.length).map
        (fun m => m.take MATCHED_BUF_PAYLOAD) := by
    simp [suffix_wildcard_query_match]
  cases harg : ((domain_get_suffixes domain).filter
      (fun s => decide (s ∈ table))).argmax List.length with
  | none =>
    have hempty := (List.argmax_eq_none).mp harg
    constructor
    · rw [hq, harg]
      simp only [Option.map_none', Option.isSome_none, Bool.false_eq_true,
        false_iff]
      rintro ⟨s, h1, h2⟩
      have : s ∈ (domain_get_suffixes domain).filter
          (fun s => decide (s ∈ table)) := (hfilter s).mpr ⟨h1, h2⟩
      rw [hempty] at this
      simp at this
    · intro m hm
      rw [hq, harg] at hm
      simp at hm
  | some m0 =>
    have hmem := List.argmax_mem harg
    rcases (hfilter m0).mp hmem with ⟨h1, h2⟩
    constructor
    · rw [hq, harg]
      simp only [Option.map_some', Option.isSome_some, true_iff]
      exact ⟨m0, h1, h2⟩
    · intro m hm
      rw [hq, harg] at hm
      simp only [Option.map_some', Option.some.injEq] at hm
      subst hm
      rw [htake m0 h1]
      refine ⟨h1, h2, ?_⟩
      intro s hs hst
      exact List.le_of_mem_argmax ((hfilter s).mpr ⟨hs, hst⟩) harg

/-- Witness for C5: the table `{example.com}` and name `www.example.com`. -/
theorem C5_longest_suffix_query_witness :
    ("www.example.com".toList.length ≤ 255) ∧
    (((suffix_wildcard_query_match ["example.com".toList] false
        "www.example.com".toList).isSome ↔
      ∃ s ∈ domain_get_suffixes "www.example.com".toList,
        s ∈ ["example.com".toList]) ∧
    (∀ m, suffix_wildcard_query_match ["example.com".toList] false
        "www.example.com".toList = some m →
      m ∈ domain_get_suffixes "www.example.com".toList ∧
      m ∈ ["example.com".toList] ∧
      ∀ s ∈ domain_get_suffixes "www.example.com".toList,
        s ∈ ["example.com".toList] → s.length ≤ m.length)) :=
  ⟨by decide, C5_longest_suffix_query ["example.com".toList]
    "www.example.com".toList (by decide)⟩

theorem bloom_get_bit_ne_zero {x k : Nat} :
    (x &&& (1 <<< k) ≠ 0) ↔ x.testBit k = true := by
  rw [Nat.shiftLeft_eq, one_mul, Nat.and_two_pow]
  cases h : x.testBit k <;> simp [h]

theorem bloom_get_bit_set_self (bytes : Nat → Nat) (pos : Nat) :
    bloom_get_bit (bloom_set_bit bytes pos) pos = true := by
  have hbyte : bloom_set_bit bytes pos (pos / 8) =
      bytes (pos / 8) ||| (1 <<< (pos % 8)) := by
    simp [bloom_set_bit]
  simp only [bloom_get_bit, hbyte, decide_eq_true_eq]
  rw [bloom_get_bit_ne_zero, Nat.testBit_or, Nat.shiftLeft_eq, one_mul,
    Nat.testBit_two_pow_self]
  simp

theorem bloom_get_bit_set_mono {bytes : Nat → Nat} {p : Nat} (q : Nat)
    (h : bloom_get_bit bytes p = true) :
    bloom_get_bit (bloom_set_bit bytes q) p = true := by
  simp only [bloom_get_bit, decide_eq_true_eq, bloom_get_bit_ne_zero] at h ⊢
  by_cases hb : p / 8 = q / 8
  · simp only [bloom_set_bit, if_pos hb, Nat.testBit_or, h, Bool.true_or]
  · simp only [bloom_set_bit, if_neg hb, h]

theorem bloom_fold_set_mono {p : Nat} :
    ∀ (ps : List Nat) (bytes : Nat → Nat),
    bloom_get_bit bytes p = true →
    bloom_get_bit (ps.foldl bloom_set_bit bytes) p = true := by
  intro ps
  induction ps with
  | nil => intro bytes h; exact h
  | cons q rest ih =>
    intro bytes h
    exact ih (bloom_set_bit bytes q) (bloom_get_bit_set_mono q h)

theorem bloom_fold_set_mem {p : Nat} :
    ∀ (ps : List Nat) (bytes : Nat → Nat), p ∈ ps →
    bloom_get_bit (ps.foldl bloom_set_bit bytes) p = true := by
  intro ps
  induction ps with
  | nil => intro _ h; simp at h
  | cons q rest ih =>
    intro bytes hmem
    rcases List.mem_cons.mp hmem with rfl | hmem
    · exact bloom_fold_set_mono rest _ (bloom_get_bit_set_self bytes p)
    · exact ih _ hmem

theorem bloom_check_add_self (f : BloomFilter) (d : List Char) :
    bloom_check (bloom_add f d) d = true := by
  simp only [bloom_check, bloom_add, List.all_eq_true]
  intro p hp
  exact bloom_fold_set_mem _ _ hp

theorem bloom_check_add_mono {f : BloomFilter} {d : List Char} (d' : List Char)
    (h : bloom_check f d = true) : bloom_check (bloom_add f d') d = true := by
  simp only [bloom_check, bloom_add, List.all_eq_true] at h ⊢
  intro p hp
  exact bloom_fold_set_mono _ _ (h p hp)

theorem bloom_check_foldl_mono {d : List Char} :
    ∀ (ks : List (List Char)) (f : BloomFilter),
    bloom_check f d = true → bloom_check (ks.foldl bloom_add f) d = true := by
  intro ks
  induction ks with
  | nil => intro f h; exact h
  | cons k rest ih => intro f h; exact ih _ (bloom_check_add_mono k h)

theorem bloom_load_member {d : List Char} :
    ∀ (ks : List (List Char)) (f : BloomFilter), d ∈ ks →
    bloom_check (ks.foldl bloom_add f) d = true := by
  intro ks
  induction ks with
  | nil => intro _ h; simp at h
  | cons k rest ih =>
    intro f hmem
    rcases List.mem_cons.mp hmem with rfl | hmem
    · exact bloom_check_foldl_mono rest _ (bloom_check_add_self f d)
    · exact ih _ hmem

/-- **C2.** With the negative filter built by inserting every `block_exact`
key (`bloom_load`), a `false` answer from `bloom_check` implies the name is
not a member of `block_exact`; equivalently, every inserted key has all 7
of its probe bits set, so `bloom_check` answers `true` for every member. -/
theorem C2_bloom_no_false_negatives (m : Nat) (keys : List (List Char))
    (x : List Char) :
    (bloom_check (bloom_load m keys) x = false → x ∉ keys) ∧
    (x ∈ keys → bloom_check (bloom_load m keys) x = true) := by
  have hmem : x ∈ keys → bloom_check (bloom_load m keys) x = true :=
    fun h => bloom_load_member keys _ h
  exact ⟨fun hfalse hx => by simp [hmem hx] at hfalse, hmem⟩

/-- Witness for C2: the key `ads.example.com` inserted into a filter of
`BLOOM_MIN_SIZE*8` bits is reported as possibly present. -/
theorem C2_bloom_no_false_negatives_witness :
    ("ads.example.com".toList ∈ ["ads.example.com".toList]) ∧
    bloom_check (bloom_load 8000000 ["ads.example.com".toList])
      "ads.example.com".toList = true :=
  ⟨by decide,
    (C2_bloom_no_false_negatives 8000000 ["ads.example.com".toList]
      "ads.example.com".toList).2 (by decide)⟩

/-- **C3 counterexample.** The literal pattern `ads` is bucketed under
`'a'`, but its compiled form also matches the name `bads`, whose lookup
only tests bucket `'b'` and the catch-all: the bucketed lookup answers
`false` although a compiled pattern matches the name, refuting the claimed
equivalence. -/
theorem C3_bucket_lookup_counterexample :
    regex_bucket_lookup
      (regexBuckets [⟨"ads".toList, literalMatcher "ads".toList⟩])
      "bads".toList = false ∧
    ([⟨"ads".toList, literalMatcher "ads".toList⟩] :
      List RegexEntry).any (fun e => e.accepts "bads".toList) = true := by
  constructor
  · decide
  · decide

theorem regexBuckets_mem_aux (entries : List RegexEntry) :
    ∀ (bk0 : Nat → List RegexEntry) (i : Nat) (e : RegexEntry),
    e ∈ entries.foldl regexBucketInsert bk0 i ↔
    e ∈ bk0 i ∨ (e ∈ entries ∧ regex_get_bucket e.pattern = i) := by
  induction entries with
  | nil => intro bk0 i e; simp
  | cons a rest ih =>
    intro bk0 i e
    rw [List.foldl_cons, ih]
    have hstep : e ∈ regexBucketInsert bk0 a i ↔
        e ∈ bk0 i ∨ (e = a ∧ regex_get_bucket a.pattern = i) := by
      unfold regexBucketInsert
      by_cases hi : i = regex_get_bucket a.pattern
      · rw [if_pos hi]
        simp only [List.mem_cons]
        constructor
        · rintro (rfl | h)
          · exact Or.inr ⟨rfl, hi.symm⟩
          · exact Or.inl h
        · rintro (h | ⟨rfl, _⟩)
          · exact Or.inr h
          · exact Or.inl rfl
      · rw [if_neg hi]
        constructor
        · exact fun h => Or.inl h
        · rintro (h | ⟨rfl, hb⟩)
          · exact h
          · exact absurd hb.symm hi
    rw [hstep]
    simp only [List.mem_cons]
    constructor
    · rintro ((h | ⟨rfl, hb⟩) | ⟨hmem, hb⟩)
      · exact Or.inl h
      · exact Or.inr ⟨Or.inl rfl, hb⟩
      · exact Or.inr ⟨Or.inr hmem, hb⟩
    · rintro (h | ⟨(rfl | hmem), hb⟩)
      · exact Or.inl (Or.inl h)
      · exact Or.inl (Or.inr ⟨rfl, hb⟩)
      · exact Or.inr ⟨hmem, hb⟩

theorem regexBuckets_mem (entries : List RegexEntry) (i : Nat)
    (e : RegexEntry) :
    e ∈ regexBuckets entries i ↔
    e ∈ entries ∧ regex_get_bucket e.pattern = i := by
  rw [regexBuckets, regexBuckets_mem_aux]
  simp

/-- **C3 (amended).** The regex step's bucketed lookup returns true iff
some successfully compiled pattern placed in the bucket of the name's
first character or in the catch-all bucket matches the name; and the
bucket placement follows the claimed classification rule (first byte
after an optional `'^'` being `.`, `(`, `[`, `\`, `*`, `?` or
non-alphanumeric goes to the catch-all, otherwise the bucket of the
lowercased first byte). -/
theorem C3_bucketed_regex_lookup (entries : List RegexEntry)
    (name : List Char) :
    (regex_bucket_lookup (regexBuckets entries) name = true ↔
      ∃ e ∈ entries,
        (regex_get_bucket e.pattern = regex_get_domain_bucket name ∨
         regex_get_bucket e.pattern = REGEX_CATCHALL_BUCKET) ∧
        e.accepts name = true) ∧
    (∀ pattern : List Char, regex_get_bucket pattern = bucketSpec pattern) := by
  constructor
  · simp only [regex_bucket_lookup, Bool.or_eq_true, List.any_eq_true]
    constructor
    · rintro (⟨e, he, hacc⟩ | ⟨e, he, hacc⟩)
      · rcases (regexBuckets_mem entries _ e).mp he with ⟨hmem, hb⟩
        exact ⟨e, hmem, Or.inl hb, hacc⟩
      · rcases (regexBuckets_mem entries _ e).mp he with ⟨hmem, hb⟩
        exact ⟨e, hmem, Or.inr hb, hacc⟩
    · rintro ⟨e, hmem, hb | hb, hacc⟩
      · exact Or.inl ⟨e, (regexBuckets_mem entries _ e).mpr ⟨hmem, hb⟩, hacc⟩
      · exact Or.inr ⟨e, (regexBuckets_mem entries _ e).mpr ⟨hmem, hb⟩, hacc⟩
  · intro pattern
    cases pattern with
    | nil => decide
    | cons c rest =>
      have hne : (c :: rest : List Char) ≠ [] := by simp
      unfold regex_get_bucket bucketSpec
      rw [if_neg hne]
      simp only [hne, ne_eq, not_false_iff, and_true]
      set p := if firstByte (c :: rest) = 94 then (c :: rest).tail
        else c :: rest with hp
      set b := firstByte p with hb
      by_cases hspec : b = 46 ∨ b = 40 ∨ b = 91 ∨ b = 92 ∨ b = 42 ∨ b = 63
      · rw [if_pos hspec, if_pos hspec]
      · rw [if_neg hspec, if_neg hspec]
        unfold tolowerByte isAlnumByte
        split_ifs <;> omega

theorem lruRemove_sublist (name : List Char) :
    ∀ l : List (List Char × IpsetType), List.Sublist (lruRemove name l) l := by
  intro l
  induction l with
  | nil => simp [lruRemove]
  | cons e rest ih =>
    rw [lruRemove]
    by_cases h : e.1 = name
    · rw [if_pos h]; exact (List.sublist_cons_self e rest)
    · rw [if_neg h]; exact ih.cons₂ e

theorem lruFind_some_length {name : List Char} {t : IpsetType} :
    ∀ {l : List (List Char × IpsetType)}, lruFind name l = some t →
    (lruRemove name l).length + 1 = l.length := by
  intro l
  induction l with
  | nil => intro h; simp [lruFind] at h
  | cons e rest ih =>
    intro h
    rw [lruFind] at h
    rw [lruRemove]
    by_cases he : e.1 = name
    · rw [if_pos he]; simp
    · rw [if_neg he] at h ⊢
      simp only [List.length_cons]
      rw [← ih h]

theorem lruFind_none_not_mem {name : List Char} :
    ∀ {l : List (List Char × IpsetType)}, lruFind name l = Option.none →
    name ∉ l.map Prod.fst := by
  intro l
  induction l with
  | nil => intro _ h; simp at h
  | cons e rest ih =>
    intro h hmem
    rw [lruFind] at h
    by_cases he : e.1 = name
    · rw [if_pos he] at h; exact Option.some_ne_none _ h
    · rw [if_neg he] at h
      rcases List.mem_cons.mp hmem with hh | hh
      · exact he hh.symm
      · exact ih h hh

theorem lruRemove_not_mem {name : List Char} :
    ∀ {l : List (List Char × IpsetType)}, (l.map Prod.fst).Nodup →
    name ∉ (lruRemove name l).map Prod.fst := by
  intro l
  induction l with
  | nil => intro _ h; simp [lruRemove] at h
  | cons e rest ih =>
    intro hnd hmem
    rw [lruRemove] at hmem
    simp only [List.map_cons, List.nodup_cons] at hnd
    by_cases he : e.1 = name
    · rw [if_pos he] at hmem
      exact hnd.1 (he ▸ hmem)
    · rw [if_neg he] at hmem
      rcases List.mem_cons.mp hmem with hh | hh
      · exact he hh.symm
      · exact ih hnd.2 hh

theorem lruRemove_nodup {name : List Char}
    {l : List (List Char × IpsetType)} (h : (l.map Prod.fst).Nodup) :
    ((lruRemove name l).map Prod.fst).Nodup :=
  h.sublist ((lruRemove_sublist name l).map Prod.fst)

theorem lru_step_inv {s : LruState} (op : LruOp) (hop : LruOpFits op)
    (h : LruInv s) : LruInv (lru_step s op) := by
  rcases h with ⟨hlen, hnd⟩
  cases op with
  | get n =>
    show LruInv (lru_get_op s n)
    rw [lru_get_op]
    cases hf : lruFind n s.entries with
    | none => exact ⟨hlen, hnd⟩
    | some t =>
      constructor
      · simp only [List.length_cons]
        rw [lruFind_some_length hf]
        exact hlen
      · simp only [List.map_cons, List.nodup_cons]
        exact ⟨lruRemove_not_mem hnd, lruRemove_nodup hnd⟩
  | put n t =>
    show LruInv (lru_put_op s n t)
    have hle : n.length ≤ LRU_DOMAIN_PAYLOAD := hop
    rw [lru_put_op]
    rw [List.take_of_length_le hle]
    cases hf : lruFind n s.entries with
    | some t0 =>
      constructor
      · simp only [List.length_cons]
        rw [lruFind_some_length hf]
        exact hlen
      · simp only [List.map_cons, List.nodup_cons]
        exact ⟨lruRemove_not_mem hnd, lruRemove_nodup hnd⟩
    | none =>
      have hnotmem := lruFind_none_not_mem hf
      by_cases hcap : s.entries.length ≥ LRU_CACHE_SIZE
      · constructor
        · simp only [if_pos hcap, List.length_cons, List.length_dropLast]
          simp only [LRU_CACHE_SIZE] at hlen hcap ⊢
          omega
        · simp only [if_pos hcap, List.map_cons, List.nodup_cons]
          constructor
          · intro hmem
            exact hnotmem
              (List.Sublist.mem hmem
                ((List.dropLast_sublist s.entries).map Prod.fst))
          · exact hnd.sublist ((List.dropLast_sublist s.entries).map Prod.fst)
      · constructor
        · simp only [if_neg hcap, List.length_cons]
          simp only [LRU_CACHE_SIZE] at hlen hcap ⊢
          omega
        · simp only [if_neg hcap, List.map_cons, List.nodup_cons]
          exact ⟨hnotmem, hnd⟩

theorem lru_run_inv_aux (ops : List LruOp) :
    (∀ op ∈ ops, LruOpFits op) →
    ∀ s : LruState, LruInv s → LruInv (ops.foldl lru_step s) := by
  induction ops with
  | nil => intro _ s h; exact h
  | cons op rest ih =>
    intro hops s h
    exact ih (fun o ho => hops o (List.mem_cons_of_mem op ho)) _
      (lru_step_inv op (hops op (List.mem_cons_self op rest)) h)

theorem lru_run_inv (ops : List LruOp)
    (hops : ∀ op ∈ ops, LruOpFits op) : LruInv (lru_run ops) :=
  lru_run_inv_aux ops hops ⟨[]⟩ ⟨by simp [LRU_CACHE_SIZE], by simp⟩

/-- **C7.** In every state of the recency cache reachable from the empty
cache by `get`/`put` operations whose names fit the 255-byte `domain`
field of an entry (`snprintf` stores longer put names truncated, so a
repeated `put` of the same over-long name would duplicate its stored
name), the entry count is at most the capacity 10000 and no two entries
share a name; and a `put` of a new fitting name while at capacity first
evicts the tail entry (the last entry in recency order) before inserting
at the head. -/
theorem C7_lru_cache_invariants (ops : List LruOp) (s : LruState)
    (name : List Char) (t : IpsetType)
    (hops : ∀ op ∈ ops, LruOpFits op)
    (hname : name.length ≤ LRU_DOMAIN_PAYLOAD) :
    ((lru_run ops).entries.length ≤ LRU_CACHE_SIZE ∧
     ((lru_run ops).entries.map Prod.fst).Nodup) ∧
    (lruFind name s.entries = Option.none →
     s.entries.length ≥ LRU_CACHE_SIZE →
     (lru_put_op s name t).entries = (name, t) :: s.entries.dropLast) := by
  refine ⟨lru_run_inv ops hops, ?_⟩
  intro hmiss hcap
  rw [lru_put_op, hmiss]
  simp [if_pos hcap, List.take_of_length_le hname]

theorem lruFind_replicate_ne {name key : List Char} (t : IpsetType)
    (h : key ≠ name) (n : Nat) :
    lruFind name (List.replicate n (key, t)) = Option.none := by
  induction n with
  | zero => simp [lruFind]
  | succ k ih => rw [List.replicate_succ, lruFind, if_neg h]; exact ih

/-- Witness for C7: a full cache of 10000 entries keyed `x` receives a
`put` of the new key `y`. -/
theorem C7_lru_cache_invariants_witness :
    ((lru_run []).entries.length ≤ LRU_CACHE_SIZE ∧
     ((lru_run []).entries.map Prod.fst).Nodup) ∧
    ((lru_put_op ⟨List.replicate 10000 (['x'], IpsetType.terminate)⟩
        ['y'] IpsetType.none).entries =
      (['y'], IpsetType.none) ::
        (List.replicate 10000 (['x'], IpsetType.terminate)).dropLast) :=
  ⟨(C7_lru_cache_invariants [] ⟨List.replicate 10000
      (['x'], IpsetType.terminate)⟩ ['y'] IpsetType.none
      (by simp) (by decide)).1,
   (C7_lru_cache_invariants [] ⟨List.replicate 10000
      (['x'], IpsetType.terminate)⟩ ['y'] IpsetType.none
      (by simp) (by decide)).2
    (lruFind_replicate_ne IpsetType.terminate (by decide) 10000)
    (by simp only [List.length_replicate]; decide)⟩

theorem suffix_query_isSome (table : List (List Char)) (domain : List Char) :
    (suffix_wildcard_query_match table false domain).isSome = true ↔
    ∃ s ∈ domain_get_suffixes domain, s ∈ table := by
  rw [suffix_wildcard_query_match]
  simp only [Bool.false_eq_true, if_false]
  cases harg : ((domain_get_suffixes domain).filter
      (fun s => decide (s ∈ table))).argmax List.length with
  | none =>
    simp only [harg, Option.map_none', Option.isSome_none,
      Bool.false_eq_true, false_iff]
    rintro ⟨s, h1, h2⟩
    have hempty := (List.argmax_eq_none).mp harg
    have : s ∈ (domain_get_suffixes domain).filter
        (fun s => decide (s ∈ table)) := by
      simp only [List.mem_filter, decide_eq_true_eq]
      exact ⟨h1, h2⟩
    rw [hempty] at this
    simp at this
  | some m0 =>
    simp only [harg, Option.map_some', Option.isSome_some, true_iff]
    have hmem := List.argmax_mem harg
    simp only [List.mem_filter, decide_eq_true_eq] at hmem
    exact ⟨m0, hmem.1, hmem.2⟩

theorem suffix_query_err (table : List (List Char)) (name : List Char) :
    suffix_wildcard_query_match table true name = Option.none := rfl

theorem suffix_query_nil (e : Bool) (name : List Char) :
    suffix_wildcard_query_match [] e name = Option.none := by
  cases e
  · rw [suffix_wildcard_query_match]
    simp
  · rfl

/-- **C1.** For every queried name with no cached decision, and with the
statements prepared, the per-step queries error-free and the negative
filter built from the `block_exact` keys, `db_lookup_domain` equals the
first-match pipeline over the sources in the fixed order regex patterns,
`block_exact`, `block_wildcard`, `fqdn_dns_allow`, `fqdn_dns_block`
(TERMINATE, TERMINATE, FORWARD_BLOCK, FORWARD_ALLOW, FORWARD_BLOCK
respectively, NONE when nothing matches); in particular a name matched by
both the allow-suffix and block-suffix tables (and no earlier source)
yields FORWARD_ALLOW. -/
theorem C1_decision_pipeline_order (st : StoreState) (m : Nat)
    (cache : LruState) (name : List Char)
    (hmiss : lruFind name cache.entries = Option.none)
    (hre : st.regexStmtPresent = true) (hex : st.exactStmtPresent = true)
    (he1 : st.exactErr = false) (he2 : st.wildcardErr = false)
    (he3 : st.allowErr = false) (he4 : st.blocksfxErr = false) :
    (db_lookup_domain true st (some (bloom_load m st.block_exact)) cache
        name = decisionSpec st name) ∧
    ((∃ s ∈ domain_get_suffixes name, s ∈ st.fqdn_dns_allow) →
     (∃ s ∈ domain_get_suffixes name, s ∈ st.fqdn_dns_block) →
     regex_bucket_lookup (regexBuckets st.regexEntries) name = false →
     name ∉ st.block_exact →
     ¬(∃ s ∈ domain_get_suffixes name, s ∈ st.block_wildcard) →
     db_lookup_domain true st (some (bloom_load m st.block_exact)) cache
        name = IpsetType.dns_allow) := by
  have hmain : db_lookup_domain true st (some (bloom_load m st.block_exact))
      cache name = decisionSpec st name := by
    rw [db_lookup_domain, if_neg (by simp), hmiss]
    show db_lookup_pipeline st (some (bloom_load m st.block_exact)) name =
      decisionSpec st name
    rw [db_lookup_pipeline, decisionSpec, hre, hex, he1, he2, he3, he4]
    by_cases h1 : regex_bucket_lookup (regexBuckets st.regexEntries) name =
        true
    · rw [if_pos ⟨rfl, h1⟩, if_pos h1]
    · rw [if_neg (fun hc => h1 hc.2), if_neg h1]
      by_cases h2 : name ∈ st.block_exact
      · have hb : bloom_check_opt (some (bloom_load m st.block_exact)) name =
            true := bloom_load_member st.block_exact _ h2
        rw [if_pos ⟨rfl, hb, rfl, h2⟩, if_pos h2]
      · rw [if_neg (fun hc => h2 hc.2.2.2), if_neg h2]
        by_cases h3 : ∃ s ∈ domain_get_suffixes name, s ∈ st.block_wildcard
        · rw [if_pos ((suffix_query_isSome _ _).mpr h3), if_pos h3]
        · rw [if_neg (fun hc => h3 ((suffix_query_isSome _ _).mp hc)),
            if_neg h3]
          by_cases h4 : ∃ s ∈ domain_get_suffixes name,
              s ∈ st.fqdn_dns_allow
          · rw [if_pos ((suffix_query_isSome _ _).mpr h4), if_pos h4]
          · rw [if_neg (fun hc => h4 ((suffix_query_isSome _ _).mp hc)),
              if_neg h4]
            by_cases h5 : ∃ s ∈ domain_get_suffixes name,
                s ∈ st.fqdn_dns_block
            · rw [if_pos ((suffix_query_isSome _ _).mpr h5), if_pos h5]
            · rw [if_neg (fun hc => h5 ((suffix_query_isSome _ _).mp hc)),
                if_neg h5]
  refine ⟨hmain, ?_⟩
  intro hfa hfb hre0 hnbe hnbw
  rw [hmain, decisionSpec]
  rw [if_neg (by simp [hre0]), if_neg hnbe, if_neg hnbw, if_pos hfa]

/-- Witness for C1: store with `trusted.com` in both suffix tables,
queried with `sub.trusted.com` on an empty cache. -/
theorem C1_decision_pipeline_order_witness :
    (lruFind "sub.trusted.com".toList (⟨[]⟩ : LruState).entries =
      Option.none) ∧
    ((db_lookup_domain true
        (⟨[], [], ["trusted.com".toList], ["trusted.com".toList], [],
          true, true, false, false, false, false⟩ : StoreState)
        (some (bloom_load 8000000 [])) ⟨[]⟩ "sub.trusted.com".toList =
      decisionSpec
        (⟨[], [], ["trusted.com".toList], ["trusted.com".toList], [],
          true, true, false, false, false, false⟩ : StoreState)
        "sub.trusted.com".toList) ∧
    ((∃ s ∈ domain_get_suffixes "sub.trusted.com".toList,
        s ∈ ["trusted.com".toList]) →
     (∃ s ∈ domain_get_suffixes "sub.trusted.com".toList,
        s ∈ ["trusted.com".toList]) →
     regex_bucket_lookup (regexBuckets []) "sub.trusted.com".toList =
        false →
     "sub.trusted.com".toList ∉ ([] : List (List Char)) →
     ¬(∃ s ∈ domain_get_suffixes "sub.trusted.com".toList,
        s ∈ ([] : List (List Char))) →
     db_lookup_domain true
        (⟨[], [], ["trusted.com".toList], ["trusted.com".toList], [],
          true, true, false, false, false, false⟩ : StoreState)
        (some (bloom_load 8000000 [])) ⟨[]⟩ "sub.trusted.com".toList =
      IpsetType.dns_allow)) :=
  ⟨rfl, C1_decision_pipeline_order
    (⟨[], [], ["trusted.com".toList], ["trusted.com".toList], [],
      true, true, false, false, false, false⟩ : StoreState)
    8000000 ⟨[]⟩ "sub.trusted.com".toList rfl rfl rfl rfl rfl rfl rfl⟩

/-- **C8.** With no database handle the lookup returns NONE for every
name; and a store error at a single pipeline step (failed prepare, bind,
or step of that step's query) behaves exactly as an empty result at that
step only: the pipeline advances and no error reaches the caller. -/
theorem C8_store_error_no_match (st : StoreState)
    (bloom : Option BloomFilter) (cache : LruState) (name : List Char) :
    (db_lookup_domain false st bloom cache name = IpsetType.none) ∧
    (db_lookup_pipeline { st with exactErr := true } bloom name =
      db_lookup_pipeline { st with block_exact := [] } bloom name) ∧
    (db_lookup_pipeline { st with wildcardErr := true } bloom name =
      db_lookup_pipeline { st with block_wildcard := [] } bloom name) ∧
    (db_lookup_pipeline { st with allowErr := true } bloom name =
      db_lookup_pipeline { st with fqdn_dns_allow := [] } bloom name) ∧
    (db_lookup_pipeline { st with blocksfxErr := true } bloom name =
      db_lookup_pipeline { st with fqdn_dns_block := [] } bloom name) := by
  refine ⟨rfl, ?_, ?_, ?_, ?_⟩
  · rw [db_lookup_pipeline, db_lookup_pipeline]
    simp
  · rw [db_lookup_pipeline, db_lookup_pipeline]
    simp [suffix_query_err, suffix_query_nil]
  · rw [db_lookup_pipeline, db_lookup_pipeline]
    simp [suffix_query_err, suffix_query_nil]
  · rw [db_lookup_pipeline, db_lookup_pipeline]
    simp [suffix_query_err, suffix_query_nil]

theorem assocFind_mem {key v : List Char} :
    ∀ {tbl : List (List Char × List Char)}, assocFind key tbl = some v →
    (key, v) ∈ tbl := by
  intro tbl
  induction tbl with
  | nil => intro h; simp [assocFind] at h
  | cons e rest ih =>
    intro h
    rw [assocFind] at h
    by_cases he : e.1 = key
    · rw [if_pos he] at h
      have hv : v = e.2 := (Option.some.injEq _ _).mp h.symm
      rw [← he, hv]
      exact List.mem_cons_self _ _
    · rw [if_neg he] at h
      exact List.mem_cons_of_mem e (ih h)

/-- **C6.** For every source name (over alias tables whose stored targets
fit the 1023-byte payload of the return buffer): an exact alias hit
returns the stored target; otherwise a parent hit returns the subdomain
prefix (up to and including the first dot) concatenated with the parent's
target, except that a composition overflowing the 1024-byte buffer yields
no alias; and when neither the name nor its immediate parent is a key, no
alias is returned. -/
theorem C6_domain_alias (tbl : List (List Char × List Char))
    (source : List Char)
    (htargets : ∀ e ∈ tbl, e.2.length ≤ TLS_DOMAIN_BUFFER - 1) :
    (∀ tgt, assocFind source tbl = some tgt →
      db_get_domain_alias tbl source = some tgt) ∧
    (assocFind source tbl = Option.none →
     ('.' ∈ source ∧ afterFirstDot source ≠ []) →
     ∀ tgt, assocFind (afterFirstDot source) tbl = some tgt →
      db_get_domain_alias tbl source =
        (if (upToFirstDot source).length + tgt.length + 1 >
            TLS_DOMAIN_BUFFER then Option.none
         else some (upToFirstDot source ++ tgt))) ∧
    (assocFind source tbl = Option.none →
     assocFind (afterFirstDot source) tbl = Option.none →
      db_get_domain_alias tbl source = Option.none) := by
  refine ⟨?_, ?_, ?_⟩
  · intro tgt h
    have hlen : tgt.length ≤ TLS_DOMAIN_BUFFER - 1 :=
      htargets (source, tgt) (assocFind_mem h)
    simp only [db_get_domain_alias, h]
    rw [List.take_of_length_le hlen]
  · intro hnone hdot tgt hparent
    simp only [db_get_domain_alias, hnone, if_pos hdot, hparent]
  · intro hnone hparent
    by_cases hdot : '.' ∈ source ∧ afterFirstDot source ≠ []
    · simp only [db_get_domain_alias, hnone, if_pos hdot, hparent]
    · simp only [db_get_domain_alias, hnone, if_neg hdot]

/-- Witness for C6: the alias table `{intel.com → keweon.center}` queried
with `mail.intel.com`. -/
theorem C6_domain_alias_witness :
    (∀ e ∈ [("intel.com".toList, "keweon.center".toList)],
      e.2.length ≤ TLS_DOMAIN_BUFFER - 1) ∧
    ((∀ tgt, assocFind "mail.intel.com".toList
        [("intel.com".toList, "keweon.center".toList)] = some tgt →
      db_get_domain_alias [("intel.com".toList, "keweon.center".toList)]
        "mail.intel.com".toList = some tgt) ∧
    (assocFind "mail.intel.com".toList
        [("intel.com".toList, "keweon.center".toList)] = Option.none →
     ('.' ∈ "mail.intel.com".toList ∧
       afterFirstDot "mail.intel.com".toList ≠ []) →
     ∀ tgt, assocFind (afterFirstDot "mail.intel.com".toList)
        [("intel.com".toList, "keweon.center".toList)] = some tgt →
      db_get_domain_alias [("intel.com".toList, "keweon.center".toList)]
        "mail.intel.com".toList =
        (if (upToFirstDot "mail.intel.com".toList).length + tgt.length + 1 >
            TLS_DOMAIN_BUFFER then Option.none
         else some (upToFirstDot "mail.intel.com".toList ++ tgt))) ∧
    (assocFind "mail.intel.com".toList
        [("intel.com".toList, "keweon.center".toList)] = Option.none →
     assocFind (afterFirstDot "mail.intel.com".toList)
        [("intel.com".toList, "keweon.center".toList)] = Option.none →
      db_get_domain_alias [("intel.com".toList, "keweon.center".toList)]
        "mail.intel.com".toList = Option.none)) :=
  ⟨by decide, C6_domain_alias
    [("intel.com".toList, "keweon.center".toList)]
    "mail.intel.com".toList (by decide)⟩

theorem inet_pton4_loop_chars :
    ∀ (s : List Char) (cur : Nat) (saw : Bool) (octets : Nat)
      (acc bs : List Nat),
    inet_pton4_loop s cur saw octets acc = some bs →
    ∀ c ∈ s, c.isDigit = true ∨ c = '.' := by
  intro s
  induction s with
  | nil => intro _ _ _ _ _ _ c hc; simp at hc
  | cons ch rest ih =>
    intro cur saw octets acc bs h c hc
    rw [inet_pton4_loop] at h
    rcases List.mem_cons.mp hc with rfl | hc
    · by_cases hd : c.isDigit = true
      · exact Or.inl hd
      · rw [if_neg hd] at h
        by_cases hdot : c = '.' ∧ saw = true
        · exact Or.inr hdot.1
        · rw [if_neg hdot] at h
          simp at h
    · by_cases hd : ch.isDigit = true
      · rw [if_pos hd] at h
        split_ifs at h
        all_goals first
          | exact ih _ _ _ _ _ h c hc
          | (simp at h
             all_goals first
              | exact ih _ _ _ _ _ h.2 c hc
              | exact ih _ _ _ _ _ h c hc)
      · rw [if_neg hd] at h
        by_cases hdot : ch = '.' ∧ saw = true
        · rw [if_pos hdot] at h
          split_ifs at h
          all_goals first
            | exact ih _ _ _ _ _ h c hc
            | (simp at h
               all_goals first
                | exact ih _ _ _ _ _ h.2 c hc
                | exact ih _ _ _ _ _ h c hc)
        · rw [if_neg hdot] at h
          simp at h

theorem inet_pton4_no_slash {s : List Char} {bs : List Nat}
    (h : inet_pton4 s = some bs) : '/' ∉ s := by
  intro hmem
  rcases inet_pton4_loop_chars s 0 false 0 [] bs h '/' hmem with hd | hd
  · simp [Char.isDigit] at hd
  · simp at hd

theorem isDigit_toNat {c : Char} (h : c.isDigit = true) :
    48 ≤ c.toNat ∧ c.toNat ≤ 57 := by
  simp only [Char.isDigit, Bool.and_eq_true, decide_eq_true_eq] at h
  obtain ⟨h1, h2⟩ := h
  exact ⟨h1, h2⟩

theorem inet_pton4_loop_length :
    ∀ (s : List Char) (cur : Nat) (saw : Bool) (octets : Nat)
      (acc bs : List Nat),
    octets ≤ 4 →
    inet_pton4_loop s cur saw octets acc = some bs →
    s.length ≤ (if saw = true then
        (if cur = 0 then 0 else if cur ≤ 2 then 2 else
         if cur ≤ 25 then 1 else 0) + (4 - octets) * 4
      else 3 + (3 - octets) * 4) := by
  intro s
  induction s with
  | nil =>
    intro cur saw octets acc bs hoct h
    simp only [List.length_nil]
    omega
  | cons ch rest ih =>
    intro cur saw octets acc bs hoct h
    rw [inet_pton4_loop] at h
    by_cases hd : ch.isDigit = true
    · have hdig := isDigit_toNat hd
      rw [if_pos hd] at h
      by_cases h1 : saw = true ∧ cur = 0
      · rw [if_pos h1] at h; simp at h
      · rw [if_neg h1] at h
        by_cases h2 : cur * 10 + (ch.toNat - 48) > 255
        · rw [if_pos h2] at h; simp at h
        · rw [if_neg h2] at h
          by_cases h3 : saw = true
          · rw [if_pos h3] at h
            have hcur : cur ≠ 0 := fun hc => h1 ⟨h3, hc⟩
            have hrec := ih _ _ _ _ _ hoct h
            simp only [List.length_cons]
            rw [if_pos rfl] at hrec
            rw [if_pos h3]
            push_neg at h2
            have hd9 : ch.toNat - 48 ≤ 9 := by omega
            split_ifs at hrec ⊢ <;> omega
          · rw [if_neg h3] at h
            by_cases h4 : octets + 1 > 4
            · rw [if_pos h4] at h; simp at h
            · rw [if_neg h4] at h
              have hrec := ih _ _ _ _ _ (by omega) h
              simp only [List.length_cons]
              rw [if_pos rfl] at hrec
              rw [if_neg h3]
              push_neg at h2
              split_ifs at hrec <;> omega
    · rw [if_neg hd] at h
      by_cases hdot : ch = '.' ∧ saw = true
      · rw [if_pos hdot] at h
        by_cases h1 : octets = 4
        · rw [if_pos h1] at h; simp at h
        · rw [if_neg h1] at h
          have hrec := ih _ _ _ _ _ hoct h
          simp only [List.length_cons]
          rw [if_neg (by simp : ¬(false = true))] at hrec
          rw [if_pos hdot.2]
          split_ifs <;> omega
      · rw [if_neg hdot] at h
        simp at h

theorem inet_pton4_length_le {s : List Char} {bs : List Nat}
    (h : inet_pton4 s = some bs) : s.length ≤ 15 := by
  have := inet_pton4_loop_length s 0 false 0 [] bs (by omega) h
  simp only [if_neg (by simp : ¬(false = true))] at this
  omega

theorem inet_pton4_loop_bytes :
    ∀ (s : List Char) (cur : Nat) (saw : Bool) (octets : Nat)
      (acc bs : List Nat),
    (saw = true → acc.length + 1 = octets ∧ octets ≤ 4) →
    (saw = false → acc.length = octets ∧ octets < 4) →
    cur ≤ 255 → (∀ b ∈ acc, b < 256) →
    inet_pton4_loop s cur saw octets acc = some bs →
    bs.length = 4 ∧ ∀ b ∈ bs, b < 256 := by
  intro s
  induction s with
  | nil =>
    intro cur saw octets acc bs hsaw hnsaw hcur hacc h
    rw [inet_pton4_loop] at h
    by_cases ho : octets < 4
    · rw [if_pos ho] at h; simp at h
    · rw [if_neg ho] at h
      have hb : bs = acc ++ [cur] := ((Option.some.injEq _ _).mp h).symm
      subst hb
      cases saw with
      | true =>
        rcases hsaw rfl with ⟨h1, h2⟩
        constructor
        · simp only [List.length_append, List.length_cons, List.length_nil]
          omega
        · intro b hb
          rcases List.mem_append.mp hb with hb | hb
          · exact hacc b hb
          · simp only [List.mem_singleton] at hb
            omega
      | false =>
        rcases hnsaw rfl with ⟨_, h2⟩
        omega
  | cons ch rest ih =>
    intro cur saw octets acc bs hsaw hnsaw hcur hacc h
    rw [inet_pton4_loop] at h
    by_cases hd : ch.isDigit = true
    · rw [if_pos hd] at h
      by_cases h1 : saw = true ∧ cur = 0
      · rw [if_pos h1] at h; simp at h
      · rw [if_neg h1] at h
        by_cases h2 : cur * 10 + (ch.toNat - 48) > 255
        · rw [if_pos h2] at h; simp at h
        · rw [if_neg h2] at h
          by_cases h3 : saw = true
          · rw [if_pos h3] at h
            exact ih _ _ _ _ _ (fun _ => hsaw h3) (by simp)
              (by omega) hacc h
          · rw [if_neg h3] at h
            by_cases h4 : octets + 1 > 4
            · rw [if_pos h4] at h; simp at h
            · rw [if_neg h4] at h
              have hns := hnsaw (by simpa using h3)
              exact ih _ _ _ _ _
                (fun _ => ⟨by omega, by omega⟩) (by simp)
                (by omega) hacc h
    · rw [if_neg hd] at h
      by_cases hdot : ch = '.' ∧ saw = true
      · rw [if_pos hdot] at h
        by_cases h1 : octets = 4
        · rw [if_pos h1] at h; simp at h
        · rw [if_neg h1] at h
          rcases hsaw hdot.2 with ⟨ha1, ha2⟩
          refine ih _ _ _ _ _ (by simp) ?_ (by omega) ?_ h
          · intro _
            constructor
            · simp only [List.length_append, List.length_cons,
                List.length_nil]
              omega
            · omega
          · intro b hb
            rcases List.mem_append.mp hb with hb | hb
            · exact hacc b hb
            · simp only [List.mem_singleton] at hb
              omega
      · rw [if_neg hdot] at h
        simp at h

theorem inet_pton4_bytes {s : List Char} {bs : List Nat}
    (h : inet_pton4 s = some bs) :
    bs.length = 4 ∧ ∀ b ∈ bs, b < 256 :=
  inet_pton4_loop_bytes s 0 false 0 [] bs (by simp) (by simp [List.length])
    (by omega) (by simp) h

theorem fill_bytes_shape (tpv : List Nat) (cp : Nat)
    (h16 : tpv.length ≤ 16) (hne : tpv.length ≠ 16) (hcple : cp ≤ tpv.length)
    (hbv : ∀ b ∈ tpv, b < 256) :
    (tpv.take cp ++ List.replicate (16 - tpv.length) 0 ++
      tpv.drop cp).length = 16 ∧
    ∀ b ∈ tpv.take cp ++ List.replicate (16 - tpv.length) 0 ++
      tpv.drop cp, b < 256 := by
  constructor
  · simp only [List.length_append, List.length_take, List.length_replicate,
      List.length_drop]
    omega
  · intro b hmem
    rcases List.mem_append.mp hmem with hmem | hmem
    · rcases List.mem_append.mp hmem with hmem | hmem
      · exact hbv b (List.mem_of_mem_take hmem)
      · have := List.eq_of_mem_replicate hmem
        omega
    · exact hbv b (List.mem_of_mem_drop hmem)

theorem flushed_bytes_lt {tp : List Nat} {val : Nat}
    (hb : ∀ b ∈ tp, b < 256) :
    ∀ b ∈ tp ++ [val / 256 % 256, val % 256], b < 256 := by
  intro b hmem
  rcases List.mem_append.mp hmem with hmem | hmem
  · exact hb b hmem
  · simp only [List.mem_cons, List.mem_singleton] at hmem
    rcases hmem with rfl | rfl | hf
    · exact Nat.mod_lt _ (by omega)
    · exact Nat.mod_lt _ (by omega)
    · simp at hf

theorem inet_pton6_finish_bytes
    {tp : List Nat} {colonp : Option Nat} {digits val : Nat} {bs : List Nat}
    (htp : tp.length ≤ 16) (hcp : ∀ cp, colonp = some cp → cp ≤ tp.length)
    (hb : ∀ b ∈ tp, b < 256)
    (h : inet_pton6_finish tp colonp digits val = some bs) :
    bs.length = 16 ∧ ∀ b ∈ bs, b < 256 := by
  cases colonp with
  | none =>
    by_cases hd0 : 0 < digits
    · by_cases hlen : tp.length + 2 > 16
      · simp only [inet_pton6_finish, if_pos hd0, if_pos hlen] at h
        exact Option.noConfusion h
      · simp only [inet_pton6_finish, if_pos hd0, if_neg hlen] at h
        by_cases he : (tp ++ [val / 256 % 256, val % 256]).length = 16
        · rw [if_pos he] at h
          have hbseq : bs = tp ++ [val / 256 % 256, val % 256] :=
            ((Option.some.injEq _ _).mp h).symm
          subst hbseq
          exact ⟨he, flushed_bytes_lt hb⟩
        · rw [if_neg he] at h
          simp at h
    · simp only [inet_pton6_finish, if_neg hd0] at h
      by_cases he : tp.length = 16
      · rw [if_pos he] at h
        have hbseq : bs = tp := ((Option.some.injEq _ _).mp h).symm
        subst hbseq
        exact ⟨he, hb⟩
      · rw [if_neg he] at h
        simp at h
  | some cp =>
    have hcple := hcp cp rfl
    by_cases hd0 : 0 < digits
    · by_cases hlen : tp.length + 2 > 16
      · simp only [inet_pton6_finish, if_pos hd0, if_pos hlen] at h
        exact Option.noConfusion h
      · simp only [inet_pton6_finish, if_pos hd0, if_neg hlen] at h
        by_cases he : (tp ++ [val / 256 % 256, val % 256]).length = 16
        · rw [if_pos he] at h
          simp at h
        · rw [if_neg he] at h
          have hbseq : bs = (tp ++ [val / 256 % 256, val % 256]).take cp ++
              List.replicate (16 - (tp ++ [val / 256 % 256,
                val % 256]).length) 0 ++
              (tp ++ [val / 256 % 256, val % 256]).drop cp :=
            ((Option.some.injEq _ _).mp h).symm
          subst hbseq
          refine fill_bytes_shape _ _ ?_ he ?_ (flushed_bytes_lt hb)
          · simp only [List.length_append, List.length_cons,
              List.length_nil]
            omega
          · simp only [List.length_append]
            omega
    · simp only [inet_pton6_finish, if_neg hd0] at h
      by_cases he : tp.length = 16
      · rw [if_pos he] at h
        simp at h
      · rw [if_neg he] at h
        have hbseq : bs = tp.take cp ++
            List.replicate (16 - tp.length) 0 ++ tp.drop cp :=
          ((Option.some.injEq _ _).mp h).symm
        subst hbseq
        exact fill_bytes_shape _ _ htp he hcple hb

theorem inet_pton6_loop_bytes :
    ∀ (s : List Char) (tp : List Nat) (colonp : Option Nat)
      (digits val : Nat) (curtok : List Char) (bs : List Nat),
    tp.length ≤ 16 → (∀ cp, colonp = some cp → cp ≤ tp.length) →
    (∀ b ∈ tp, b < 256) →
    inet_pton6_loop s tp colonp digits val curtok = some bs →
    bs.length = 16 ∧ ∀ b ∈ bs, b < 256 := by
  intro s
  induction s with
  | nil =>
    intro tp colonp digits val curtok bs htp hcp hb h
    exact inet_pton6_finish_bytes htp hcp hb h
  | cons ch rest ih =>
    intro tp colonp digits val curtok bs htp hcp hb h
    rw [inet_pton6_loop] at h
    cases hhex : hexdigit_value ch with
    | some d =>
      simp only [hhex] at h
      by_cases h4 : digits = 4
      · rw [if_pos h4] at h; simp at h
      · rw [if_neg h4] at h
        exact ih _ _ _ _ _ _ htp hcp hb h
    | none =>
      simp only [hhex] at h
      by_cases hcol : ch = ':'
      · rw [if_pos hcol] at h
        by_cases hd0 : digits = 0
        · rw [if_pos hd0] at h
          by_cases hsome : colonp.isSome = true
          · rw [if_pos hsome] at h; simp at h
          · rw [if_neg hsome] at h
            refine ih _ _ _ _ _ _ htp ?_ hb h
            intro cp hc
            have : cp = tp.length := by
              have := (Option.some.injEq _ _).mp hc.symm
              omega
            omega
        · rw [if_neg hd0] at h
          by_cases hre : rest = []
          · rw [if_pos hre] at h; simp at h
          · rw [if_neg hre] at h
            by_cases hlen : tp.length + 2 > 16
            · rw [if_pos hlen] at h; simp at h
            · rw [if_neg hlen] at h
              refine ih _ _ _ _ _ _ ?_ ?_ ?_ h
              · simp only [List.length_append, List.length_cons,
                  List.length_nil]
                omega
              · intro cp hc
                have := hcp cp hc
                simp only [List.length_append]
                omega
              · intro b hmem
                rcases List.mem_append.mp hmem with hmem | hmem
                · exact hb b hmem
                · simp only [List.mem_cons, List.mem_singleton] at hmem
                  rcases hmem with rfl | rfl | hf
                  · exact Nat.mod_lt _ (by omega)
                  · exact Nat.mod_lt _ (by omega)
                  · simp at hf
      · rw [if_neg hcol] at h
        by_cases hdot : ch = '.' ∧ tp.length + 4 ≤ 16
        · rw [if_pos hdot] at h
          cases hp4 : inet_pton4 curtok with
          | none => rw [hp4] at h; simp at h
          | some b4 =>
            rw [hp4] at h
            rcases inet_pton4_bytes hp4 with ⟨hb4len, hb4⟩
            refine inet_pton6_finish_bytes ?_ ?_ ?_ h
            · simp only [List.length_append]
              omega
            · intro cp hc
              have := hcp cp hc
              simp only [List.length_append]
              omega
            · intro b hmem
              rcases List.mem_append.mp hmem with hmem | hmem
              · exact hb b hmem
              · exact hb4 b hmem
        · rw [if_neg hdot] at h
          simp at h

theorem inet_pton6_bytes {s : List Char} {bs : List Nat}
    (h : inet_pton6 s = some bs) : bs.length = 16 ∧ ∀ b ∈ bs, b < 256 := by
  rw [inet_pton6] at h
  by_cases h1 : firstByte s = 58
  · rw [if_pos h1] at h
    by_cases h2 : firstByte s.tail = 58
    · rw [if_pos h2] at h
      exact inet_pton6_loop_bytes _ _ _ _ _ _ _ (by simp) (by simp)
        (by simp) h
    · rw [if_neg h2] at h
      simp at h
  · rw [if_neg h1] at h
    exact inet_pton6_loop_bytes _ _ _ _ _ _ _ (by simp) (by simp)
      (by simp) h

theorem hexdigit_value_hexDigitChar : ∀ x : Fin 16,
    hexdigit_value (hexDigitChar x.val) = some x.val := by decide

theorem hexdigit_value_of_lt {x : Nat} (hx : x < 16) :
    hexdigit_value (hexDigitChar x) = some x :=
  hexdigit_value_hexDigitChar ⟨x, hx⟩

theorem hexDigitChar_toNat_ne_colon : ∀ x : Fin 16,
    (hexDigitChar x.val).toNat ≠ 58 := by decide

theorem hexdigit_value_colon : hexdigit_value ':' = Option.none := by decide

theorem pton6_loop_hexstep {c : Char} {x : Nat}
    (hx : hexdigit_value c = some x) (rest : List Char) (tp : List Nat)
    (colonp : Option Nat) (digits val : Nat) (curtok : List Char)
    (hd : digits ≠ 4) :
    inet_pton6_loop (c :: rest) tp colonp digits val curtok =
    inet_pton6_loop rest tp colonp (digits + 1) (val * 16 + x) curtok := by
  rw [inet_pton6_loop]
  simp only [hx, if_neg hd]

theorem pton6_loop_group (b0 b1 : Nat) (hb0 : b0 < 256) (hb1 : b1 < 256)
    (srest : List Char) (tp : List Nat) (colonp : Option Nat)
    (curtok : List Char) :
    inet_pton6_loop (byteToHex b0 ++ byteToHex b1 ++ srest) tp colonp 0 0
      curtok =
    inet_pton6_loop srest tp colonp 4 (b0 * 256 + b1) curtok := by
  have h1 : b0 / 16 % 16 < 16 := Nat.mod_lt _ (by omega)
  have h2 : b0 % 16 < 16 := Nat.mod_lt _ (by omega)
  have h3 : b1 / 16 % 16 < 16 := Nat.mod_lt _ (by omega)
  have h4 : b1 % 16 < 16 := Nat.mod_lt _ (by omega)
  show inet_pton6_loop (hexDigitChar (b0 / 16 % 16) :: hexDigitChar (b0 % 16)
    :: hexDigitChar (b1 / 16 % 16) :: hexDigitChar (b1 % 16) :: srest)
    tp colonp 0 0 curtok = _
  rw [pton6_loop_hexstep (hexdigit_value_of_lt h1) _ _ _ _ _ _ (by omega),
    pton6_loop_hexstep (hexdigit_value_of_lt h2) _ _ _ _ _ _ (by omega),
    pton6_loop_hexstep (hexdigit_value_of_lt h3) _ _ _ _ _ _ (by omega),
    pton6_loop_hexstep (hexdigit_value_of_lt h4) _ _ _ _ _ _ (by omega)]
  have hval : ((((0 * 16 + b0 / 16 % 16) * 16 + b0 % 16) * 16 +
      b1 / 16 % 16) * 16 + b1 % 16) = b0 * 256 + b1 := by omega
  rw [hval]

theorem ipv6_format_ne_nil {bs : List Nat} (h : bs ≠ []) :
    ipv6_format bs ≠ [] := by
  match bs with
  | [] => exact absurd rfl h
  | [b] => simp [ipv6_format, byteToHex]
  | b0 :: b1 :: rest => simp [ipv6_format, byteToHex]

theorem pton6_parse_format :
    ∀ (n : Nat) (bs : List Nat) (tp : List Nat) (curtok : List Char),
    bs.length ≤ n →
    2 ∣ bs.length → bs ≠ [] → (∀ b ∈ bs, b < 256) →
    tp.length + bs.length = 16 →
    inet_pton6_loop (ipv6_format bs) tp Option.none 0 0 curtok =
      some (tp ++ bs) := by
  intro n
  induction n with
  | zero =>
    intro bs tp curtok hn _ hne _ _
    exact absurd (List.length_eq_zero.mp (by omega)) hne
  | succ n ih =>
    intro bs tp curtok hn hdvd hne hlt hlen
    match bs with
    | [] => exact absurd rfl hne
    | [b] =>
      exfalso
      simp only [List.length_singleton] at hdvd
      omega
    | b0 :: b1 :: rest =>
      have hb0 : b0 < 256 := hlt b0 (by simp)
      have hb1 : b1 < 256 := hlt b1 (by simp)
      show inet_pton6_loop (byteToHex b0 ++ byteToHex b1 ++
        (if rest = [] then [] else ':' :: ipv6_format rest)) tp Option.none
        0 0 curtok = _
      rw [pton6_loop_group b0 b1 hb0 hb1]
      by_cases hrest : rest = []
      · subst hrest
        rw [if_pos rfl]
        show inet_pton6_finish tp Option.none 4 (b0 * 256 + b1) = _
        rw [inet_pton6_finish]
        simp only [List.length_cons, List.length_nil] at hlen
        rw [if_pos (by omega : (0:Nat) < 4),
          if_neg (by omega : ¬(tp.length + 2 > 16))]
        have hv1 : (b0 * 256 + b1) / 256 % 256 = b0 := by omega
        have hv2 : (b0 * 256 + b1) % 256 = b1 := by omega
        rw [hv1, hv2]
        simp only [if_pos (by simp; omega :
          (tp ++ [b0, b1]).length = 16)]
      · rw [if_neg hrest]
        rw [inet_pton6_loop]
        simp only [hexdigit_value_colon, if_pos rfl,
          if_neg (by omega : ¬(4 = 0)),
          if_neg (ipv6_format_ne_nil hrest)]
        simp only [List.length_cons] at hlen
        rw [if_neg (by omega : ¬(tp.length + 2 > 16))]
        have hv1 : (b0 * 256 + b1) / 256 % 256 = b0 := by omega
        have hv2 : (b0 * 256 + b1) % 256 = b1 := by omega
        rw [hv1, hv2]
        have hihres := ih rest (tp ++ [b0, b1]) (ipv6_format rest)
          (by simp only [List.length_cons] at hn; omega)
          (by simp only [List.length_cons] at hdvd; omega)
          hrest (fun b hb => hlt b (by simp [hb]))
          (by simp only [List.length_append, List.length_cons,
            List.length_nil]; omega)
        rw [hihres]
        simp

theorem ipv6_format_length :
    ∀ (n : Nat) (bs : List Nat), bs.length ≤ n → 2 ∣ bs.length → bs ≠ [] →
    2 * (ipv6_format bs).length = 5 * bs.length - 2 := by
  intro n
  induction n with
  | zero =>
    intro bs hn _ hne
    exact absurd (List.length_eq_zero.mp (by omega)) hne
  | succ n ih =>
    intro bs hn hdvd hne
    match bs with
    | [] => exact absurd rfl hne
    | [b] =>
      exfalso
      simp only [List.length_singleton] at hdvd
      omega
    | b0 :: b1 :: rest =>
      show 2 * (byteToHex b0 ++ byteToHex b1 ++
        (if rest = [] then [] else ':' :: ipv6_format rest)).length = _
      by_cases hrest : rest = []
      · subst hrest
        simp [byteToHex]
      · rw [if_neg hrest]
        have := ih rest (by simp only [List.length_cons] at hn; omega)
          (by simp only [List.length_cons] at hdvd; omega) hrest
        have hr1 : 1 ≤ rest.length := by
          cases rest with
          | nil => exact absurd rfl hrest
          | cons a t => simp
        simp only [List.length_append, List.length_cons, byteToHex,
          List.length_nil]
        simp only [List.length_cons] at hdvd ⊢
        omega

theorem firstByte_format (b0 b1 : Nat) (rest : List Nat) :
    firstByte (ipv6_format (b0 :: b1 :: rest)) =
      (hexDigitChar (b0 / 16 % 16)).toNat := by
  show firstByte (byteToHex b0 ++ byteToHex b1 ++ _) = _
  simp [byteToHex, firstByte]

theorem inet_pton6_format {bs : List Nat} (hlen : bs.length = 16)
    (hlt : ∀ b ∈ bs, b < 256) : inet_pton6 (ipv6_format bs) = some bs := by
  cases bs with
  | nil => simp at hlen
  | cons b0 t =>
    cases t with
    | nil => simp at hlen
    | cons b1 rest =>
      rw [inet_pton6]
      rw [if_neg (by
        rw [firstByte_format]
        exact hexDigitChar_toNat_ne_colon ⟨b0 / 16 % 16,
          Nat.mod_lt _ (by omega)⟩)]
      simpa using pton6_parse_format 16 (b0 :: b1 :: rest) []
        (ipv6_format (b0 :: b1 :: rest)) (by omega)
        (by rw [hlen]; decide) (by simp) hlt (by simpa using hlen)

theorem pton6_loop_dead :
    ∀ (s : List Char) (tp : List Nat) (cp digits val : Nat)
      (curtok : List Char),
    tp.length = 16 →
    inet_pton6_loop s tp (some cp) digits val curtok = Option.none := by
  intro s
  induction s with
  | nil =>
    intro tp cp digits val curtok h16
    show inet_pton6_finish tp (some cp) digits val = Option.none
    by_cases hd0 : 0 < digits
    · simp only [inet_pton6_finish, if_pos hd0,
        if_pos (by omega : tp.length + 2 > 16)]
    · simp only [inet_pton6_finish, if_neg hd0, if_pos h16]
  | cons ch rest ih =>
    intro tp cp digits val curtok h16
    rw [inet_pton6_loop]
    cases hhex : hexdigit_value ch with
    | some d =>
      by_cases h4 : digits = 4
      · simp only [if_pos h4]
      · simp only [if_neg h4]
        exact ih _ _ _ _ _ h16
    | none =>
      by_cases hcol : ch = ':'
      · simp only [if_pos hcol]
        by_cases hd0 : digits = 0
        · simp [hd0]
        · simp only [if_neg hd0]
          by_cases hre : rest = []
          · simp only [if_pos hre]
          · simp only [if_neg hre,
              if_pos (by omega : tp.length + 2 > 16)]
      · simp only [if_neg hcol]
        by_cases hdot : ch = '.' ∧ tp.length + 4 ≤ 16
        · exact absurd hdot.2 (by omega)
        · simp only [if_neg hdot]

theorem pton6_loop_length :
    ∀ (s : List Char) (tp : List Nat) (colonp : Option Nat)
      (digits val : Nat) (pre curtok : List Char) (bs : List Nat),
    2 ∣ tp.length → tp.length ≤ 16 → digits ≤ 4 →
    curtok = pre ++ s → pre.length = digits →
    inet_pton6_loop s tp colonp digits val curtok = some bs →
    2 * s.length + 2 * digits ≤
      5 * (16 - tp.length - (if colonp.isSome then 2 else 0)) + 12 := by
  intro s
  induction s with
  | nil =>
    intro tp colonp digits val pre curtok bs _ _ hd4 _ _ _
    simp only [List.length_nil]
    omega
  | cons ch rest ih =>
    intro tp colonp digits val pre curtok bs hdvd h16 hd4 hcur hpre h
    rw [inet_pton6_loop] at h
    cases hhex : hexdigit_value ch with
    | some d =>
      rw [hhex] at h
      simp only [] at h
      by_cases h4 : digits = 4
      · rw [if_pos h4] at h; simp at h
      · rw [if_neg h4] at h
        have hrec := ih _ _ _ _ (pre ++ [ch]) _ _ hdvd h16 (by omega)
          (by rw [hcur]; simp) (by simp [hpre]) h
        simp only [List.length_cons]
        omega
    | none =>
      rw [hhex] at h
      simp only [] at h
      by_cases hcol : ch = ':'
      · rw [if_pos hcol] at h
        by_cases hd0 : digits = 0
        · rw [if_pos hd0] at h
          cases colonp with
          | some cp0 =>
            simp only [Option.isSome_some, if_pos rfl] at h
            simp at h
          | none =>
            simp only [Option.isSome_none,
              if_neg (by simp : ¬(false = true))] at h
            by_cases htp16 : tp.length = 16
            · rw [pton6_loop_dead rest tp tp.length 0 0 rest htp16] at h
              simp at h
            · have hrec := ih tp (some tp.length) 0 0 [] rest bs
                hdvd h16 (by omega) rfl (by simp) h
              simp at hrec ⊢
              omega
        · rw [if_neg hd0] at h
          by_cases hre : rest = []
          · rw [if_pos hre] at h; simp at h
          · rw [if_neg hre] at h
            by_cases hlen : tp.length + 2 > 16
            · rw [if_pos hlen] at h; simp at h
            · rw [if_neg hlen] at h
              cases colonp with
              | some cp0 =>
                by_cases htp14 : tp.length = 14
                · rw [pton6_loop_dead rest _ cp0 0 0 rest
                    (by simp; omega)] at h
                  simp at h
                · have hrec := ih _ (some cp0) 0 0 [] rest bs
                    (by simp only [List.length_append, List.length_cons,
                      List.length_nil]; omega)
                    (by simp only [List.length_append, List.length_cons,
                      List.length_nil]; omega)
                    (by omega) rfl (by simp) h
                  simp at hrec ⊢
                  omega
              | none =>
                have hrec := ih _ Option.none 0 0 [] rest bs
                  (by simp only [List.length_append, List.length_cons,
                    List.length_nil]; omega)
                  (by simp only [List.length_append, List.length_cons,
                    List.length_nil]; omega)
                  (by omega) rfl (by simp) h
                simp at hrec ⊢
                omega
      · rw [if_neg hcol] at h
        by_cases hdot : ch = '.' ∧ tp.length + 4 ≤ 16
        · rw [if_pos hdot] at h
          cases hp4 : inet_pton4 curtok with
          | none => rw [hp4] at h; simp at h
          | some b4 =>
            rw [hp4] at h
            have hlen15 := inet_pton4_length_le hp4
            have hclen : curtok.length = pre.length + (rest.length + 1) := by
              rw [hcur]
              simp
            cases colonp with
            | none =>
              simp only [List.length_cons, Option.isSome_none,
                Bool.false_eq_true, if_false]
              omega
            | some cp0 =>
              have hb4len := (inet_pton4_bytes hp4).1
              have hne16 : (tp ++ b4).length ≠ 16 := by
                intro hc
                simp only [inet_pton6_finish,
                  if_neg (by omega : ¬((0:Nat) < 0)), if_pos hc] at h
                simp at h
              simp only [List.length_append, hb4len] at hne16
              simp only [List.length_cons]
              simp
              omega
        · rw [if_neg hdot] at h
          simp at h

theorem inet_pton6_length_le {s : List Char} {bs : List Nat}
    (h : inet_pton6 s = some bs) : s.length ≤ 46 := by
  cases s with
  | nil => simp
  | cons c0 rest =>
    by_cases h58 : firstByte (c0 :: rest) = 58
    · rw [inet_pton6, if_pos h58] at h
      by_cases h58t : firstByte (c0 :: rest).tail = 58
      · rw [if_pos h58t] at h
        cases rest with
        | nil => simp [firstByte] at h58t
        | cons c1 t =>
          have hc1 : c1 = ':' := by
            have h58t' : c1.toNat = 58 := h58t
            rw [← Char.ofNat_toNat c1, h58t']
          subst hc1
          rw [List.tail_cons] at h
          rw [inet_pton6_loop] at h
          simp only [hexdigit_value_colon] at h
          simp only [if_true, Option.isSome_none, Bool.false_eq_true,
            if_false] at h
          have hlen := pton6_loop_length t [] (some 0) 0 0 [] t bs
            (by simp) (by simp) (by omega) rfl rfl h
          simp at hlen
          simp
          omega
      · rw [if_neg h58t] at h
        simp at h
    · rw [inet_pton6, if_neg h58] at h
      have hlen := pton6_loop_length (c0 :: rest) [] Option.none 0 0 []
        (c0 :: rest) bs (by simp) (by simp) (by omega) rfl rfl h
      simp at hlen
      simp
      omega

/-- **C9.** IPv6 canonicalization is idempotent: with the 48-byte output
buffer used at every call site, `ipv6_normalize (ipv6_normalize x) =
ipv6_normalize x` for every input `x` — a parseable address expands to
the 39-character canonical form, which reparses to the same 16 bytes,
and an unparseable input is copied (truncated to 47 bytes), which stays
unparseable because every parseable string has at most 46 characters. -/
theorem C9_ipv6_normalize_idempotent (x : List Char) :
    ipv6_normalize (ipv6_normalize x 48) 48 = ipv6_normalize x 48 := by
  cases hp : inet_pton6 x with
  | some bytes =>
    obtain ⟨h16, hlt⟩ := inet_pton6_bytes hp
    have hne : bytes ≠ [] := by
      intro hc
      rw [hc] at h16
      simp at h16
    have hflen : 2 * (ipv6_format bytes).length = 5 * bytes.length - 2 :=
      ipv6_format_length 16 bytes (by omega) (by rw [h16]; decide) hne
    rw [h16] at hflen
    have hout : ipv6_normalize x 48 = ipv6_format bytes := by
      simp only [ipv6_normalize, hp]
      exact List.take_of_length_le (by omega)
    rw [hout]
    simp only [ipv6_normalize, inet_pton6_format h16 hlt]
    exact List.take_of_length_le (by omega)
  | none =>
    have hout : ipv6_normalize x 48 = x.take 47 := by
      simp only [ipv6_normalize, hp]
    rw [hout]
    cases hp2 : inet_pton6 (x.take 47) with
    | some bs2 =>
      exfalso
      have hl := inet_pton6_length_le hp2
      rw [List.length_take] at hl
      have heq : x.take 47 = x := List.take_of_length_le (by omega)
      rw [heq, hp] at hp2
      exact Option.noConfusion hp2
    | none =>
      simp only [ipv6_normalize, hp2, List.take_take]
      norm_num

/-- **C10.** A stored rule with non-numeric text after the `/` such as
`10.0.0.0/x` is not rejected: `atoi` yields 0, so `parse_cidr` returns
prefix length 0, `ipv4_in_cidr` with prefix 0 accepts unconditionally,
and the rewrite operation returns that rule's target for every
parseable IPv4 source address. -/
theorem C10_nonnumeric_prefix_matches_all (tgt s : List Char)
    (a4 : List Nat) (hp4 : inet_pton4 s = some a4) :
    parse_cidr ("10.0.0.0/x".toList) = CidrResult.v4 [10, 0, 0, 0] 0 ∧
    db_get_rewrite_ip_internal [(("10.0.0.0/x".toList), tgt)] s false =
      some (tgt.take IP_REWRITE_PAYLOAD) := by
  constructor
  · decide
  · have hnos : '/' ∉ s := inet_pton4_no_slash hp4
    have hne : ("10.0.0.0/x".toList) ≠ s := by
      intro hc
      exact hnos (hc ▸ (by decide : '/' ∈ "10.0.0.0/x".toList))
    have hfil : List.filter (fun e => decide ('/' ∈ e.1))
        [(("10.0.0.0/x".toList), tgt)] = [(("10.0.0.0/x".toList), tgt)] := by
      simp
    have hpc : parse_cidr ("10.0.0.0/x".toList) =
        CidrResult.v4 [10, 0, 0, 0] 0 := by decide
    simp only [db_get_rewrite_ip_internal, assocFind, if_neg hne,
      Bool.false_eq_true, false_and, if_false, hp4, hfil]
    simp only [cidr_scan, hpc, ipv4_in_cidr, if_pos rfl]
    simp

theorem C10_nonnumeric_prefix_matches_all_witness :
    inet_pton4 ("192.168.5.7".toList) = some [192, 168, 5, 7] ∧
    (parse_cidr ("10.0.0.0/x".toList) = CidrResult.v4 [10, 0, 0, 0] 0 ∧
     db_get_rewrite_ip_internal
        [(("10.0.0.0/x".toList), "10.20.0.10".toList)]
        ("192.168.5.7".toList) false =
      some (("10.20.0.10".toList).take IP_REWRITE_PAYLOAD)) :=
  ⟨by decide, C10_nonnumeric_prefix_matches_all ("10.20.0.10".toList)
    ("192.168.5.7".toList) [192, 168, 5, 7] (by decide)⟩
